import Mathlib

/-!
Verification of the value model, total-order comparator, binary record codec and
producer adapters of the genji value-encoding layer.  The repository ships only the
test files of this layer, so the operations themselves are modelled from the
specification and verified against the properties the tests pin down.
-/

namespace Genji

/-- Byte strings are modelled as lists of naturals; in well-formed data every entry
is below 256. -/
abbrev Bytes := List Nat

/-- Byte view of a string, one entry per character code.
Modelled from the spec: Go strings are byte slices; all strings appearing in this
development are ASCII, for which character codes and UTF-8 bytes coincide. -/
def stringBytes (s : String) : Bytes := s.data.map (fun c => c.toNat)

/-- Modelled from the spec: the universal value model of §3, a closed tagged union
over the kinds Null, Bool, Integer, Double, Text, Blob, Array, Document.  The
Double payload is carried as a rational number because the comparator of §4.1
compares numbers by numeric value; Text payloads and field names are byte lists,
as Go strings are byte slices.  Array and Document payloads are materialized
buffers (ordered lists), per §3. -/
inductive Value : Type where
  | null : Value
  | bool (b : Bool) : Value
  | integer (i : Int) : Value
  | double (q : ℚ) : Value
  | text (bytes : Bytes) : Value
  | blob (bytes : Bytes) : Value
  | array (elems : List Value) : Value
  | document (fields : List (Bytes × Value)) : Value

/-- Modelled from the spec: the ascending kind rank of §4.1,
Null < Bool < Number < Text/Blob < Array < Document.  Integer and Double share the
Number rank because they compare by numeric value; Text and Blob share a rank
because a Text and a Blob with identical byte content compare EQUAL. -/
def rank : Value → Nat
  | .null => 0
  | .bool _ => 1
  | .integer _ => 2
  | .double _ => 2
  | .text _ => 3
  | .blob _ => 3
  | .array _ => 4
  | .document _ => 5

/-- Numeric key of a Number-ranked value (0 for other kinds). -/
def numKey : Value → ℚ
  | .integer i => (i : ℚ)
  | .double q => q
  | _ => 0

/-- Byte key of a Text/Blob-ranked value ([] for other kinds). -/
def bytesKey : Value → Bytes
  | .text b => b
  | .blob b => b
  | _ => []

/-- Bool key of a Bool-ranked value (false for other kinds). -/
def boolKey : Value → Bool
  | .bool b => b
  | _ => false

/-- Three-way comparison of naturals. -/
def natCmp (m n : Nat) : Ordering :=
  if m < n then .lt else if n < m then .gt else .eq

/-- Three-way comparison of rationals. -/
def ratCmp (a b : ℚ) : Ordering :=
  if a < b then .lt else if b < a then .gt else .eq

/-- Three-way comparison of booleans: false < true. -/
def boolCmp : Bool → Bool → Ordering
  | false, true => .lt
  | true, false => .gt
  | _, _ => .eq

/-- Lexicographic three-way comparison of lists: element-wise in order, a strict
prefix sorts before its longer extension. -/
def lexOrd (c : α → α → Ordering) : List α → List α → Ordering
  | [], [] => .eq
  | [], _ :: _ => .lt
  | _ :: _, [] => .gt
  | x :: xs, y :: ys =>
    match c x y with
    | .eq => lexOrd c xs ys
    | o => o

/-- Lexicographic byte comparison (used for the shared Text/Blob rank). -/
def bytesCmp (a b : Bytes) : Ordering := lexOrd natCmp a b

/-- Same-rank comparison of non-Array values: false < true for Bool, numeric
comparison for Number, lexicographic byte comparison for Text/Blob, and EQUAL for
Null/Null and Document/Document. -/
def scalarCmp (a b : Value) : Ordering :=
  if rank a = 1 then boolCmp (boolKey a) (boolKey b)
  else if rank a = 2 then ratCmp (numKey a) (numKey b)
  else if rank a = 3 then bytesCmp (bytesKey a) (bytesKey b)
  else .eq

mutual

/-- Modelled from the spec: the canonical total-order comparator of §4.1.  Values
of different ranks compare by rank; within a rank, Bool compares false < true,
Numbers compare by numeric value, Text/Blob compare bytes lexicographically,
Arrays compare element-wise with a strict prefix first, and any two Documents
compare equal-rank. -/
def compareValues : Value → Value → Ordering
  | a, b =>
    match natCmp (rank a) (rank b) with
    | .eq =>
      match a, b with
      | .array xs, .array ys => compareList xs ys
      | _, _ => scalarCmp a b
    | o => o
termination_by structural a _ => a

/-- Element-wise comparison of array payloads, a strict prefix sorting first. -/
def compareList : List Value → List Value → Ordering
  | [], [] => .eq
  | [], _ :: _ => .lt
  | _ :: _, [] => .gt
  | x :: xs, y :: ys =>
    match compareValues x y with
    | .eq => compareList xs ys
    | o => o
termination_by structural l _ => l

end

theorem compareList_eq_lexOrd :
    ∀ xs ys : List Value, compareList xs ys = lexOrd compareValues xs ys
  | [], [] => rfl
  | [], _ :: _ => rfl
  | _ :: _, [] => rfl
  | x :: xs, y :: ys => by
    simp only [compareList, lexOrd, compareList_eq_lexOrd xs ys]

example : compareValues (.integer 1) (.double 1) = .eq := rfl
example : compareValues (.text (stringBytes "foo")) (.blob (stringBytes "foo")) = .eq := rfl
example : compareValues (.array [.integer 1]) (.array [.integer 1, .null]) = .lt := rfl
example : compareValues .null (.bool false) = .lt := rfl

theorem natCmp_lt_iff {m n : Nat} : natCmp m n = .lt ↔ m < n := by
  unfold natCmp; split_ifs <;> simp_all <;> omega

theorem natCmp_gt_iff {m n : Nat} : natCmp m n = .gt ↔ n < m := by
  unfold natCmp; split_ifs <;> simp_all <;> omega

theorem natCmp_eq_iff {m n : Nat} : natCmp m n = .eq ↔ m = n := by
  unfold natCmp; split_ifs <;> simp_all <;> omega

theorem ratCmp_lt_iff {a b : ℚ} : ratCmp a b = .lt ↔ a < b := by
  unfold ratCmp; split_ifs with h1 h2 <;> simp [h1]

theorem ratCmp_gt_iff {a b : ℚ} : ratCmp a b = .gt ↔ b < a := by
  unfold ratCmp; split_ifs with h1 h2
  · simp [show ¬ b < a from fun hc => absurd (hc.trans h1) (lt_irrefl _), h1]
  · simp [h2]
  · simp [h2]

theorem ratCmp_eq_iff {a b : ℚ} : ratCmp a b = .eq ↔ a = b := by
  unfold ratCmp; split_ifs with h1 h2
  · simp [h1.ne]
  · simp [h2.ne']
  · simp [le_antisymm (not_lt.mp h2) (not_lt.mp h1)]

theorem compareValues_rank_lt {a b : Value} (h : rank a < rank b) :
    compareValues a b = .lt := by
  cases a <;> cases b <;> first | rfl | simp_all [rank]

theorem compareValues_rank_gt {a b : Value} (h : rank b < rank a) :
    compareValues a b = .gt := by
  cases a <;> cases b <;> first | rfl | simp_all [rank]

theorem rank_eq_array {a : Value} (h : rank a = 4) : ∃ xs, a = .array xs := by
  cases a <;> simp_all [rank]

theorem compareValues_scalar {a b : Value} (h : rank a = rank b) (h4 : rank a ≠ 4) :
    compareValues a b = scalarCmp a b := by
  cases a <;> cases b <;> first | rfl | simp_all [rank]

theorem compareValues_array (xs ys : List Value) :
    compareValues (.array xs) (.array ys) = lexOrd compareValues xs ys :=
  compareList_eq_lexOrd xs ys

theorem natCmp_swap (m n : Nat) : natCmp m n = (natCmp n m).swap := by
  unfold natCmp; split_ifs <;> first | rfl | omega

theorem ratCmp_swap (a b : ℚ) : ratCmp a b = (ratCmp b a).swap := by
  unfold ratCmp; split_ifs <;> first | rfl | linarith

theorem boolCmp_swap (a b : Bool) : boolCmp a b = (boolCmp b a).swap := by
  cases a <;> cases b <;> rfl

theorem lexOrd_swap {c : α → α → Ordering} :
    ∀ {l1 l2 : List α}, (∀ x ∈ l1, ∀ y ∈ l2, c x y = (c y x).swap) →
      lexOrd c l1 l2 = (lexOrd c l2 l1).swap
  | [], [], _ => rfl
  | [], _ :: _, _ => rfl
  | _ :: _, [], _ => rfl
  | x :: xs, y :: ys, h => by
    have hxy := h x (List.mem_cons_self x xs) y (List.mem_cons_self y ys)
    have ht : lexOrd c xs ys = (lexOrd c ys xs).swap :=
      lexOrd_swap fun x' hx' y' hy' =>
        h x' (List.mem_cons_of_mem _ hx') y' (List.mem_cons_of_mem _ hy')
    simp only [lexOrd, hxy]
    cases c y x <;> simp [Ordering.swap, ht]

theorem bytesCmp_swap (u v : Bytes) : bytesCmp u v = (bytesCmp v u).swap :=
  lexOrd_swap fun x _ y _ => natCmp_swap x y

theorem scalarCmp_swap {a b : Value} (h : rank a = rank b) :
    scalarCmp a b = (scalarCmp b a).swap := by
  simp only [scalarCmp, ← h]
  split_ifs
  · exact boolCmp_swap _ _
  · exact ratCmp_swap _ _
  · exact bytesCmp_swap _ _
  · rfl

theorem Value.one_le_sizeOf (a : Value) : 1 ≤ sizeOf a := by
  cases a <;> simp

theorem compareValues_swap_aux :
    ∀ (n : Nat) (a b : Value), sizeOf a ≤ n →
      compareValues a b = (compareValues b a).swap := by
  intro n
  induction n with
  | zero =>
    intro a _ h
    exact absurd (Nat.le_trans (Value.one_le_sizeOf a) h) (by omega)
  | succ n ih =>
    intro a b hn
    rcases Nat.lt_trichotomy (rank a) (rank b) with h | h | h
    · rw [compareValues_rank_lt h, compareValues_rank_gt h]; rfl
    · by_cases h4 : rank a = 4
      · obtain ⟨xs, rfl⟩ := rank_eq_array h4
        obtain ⟨ys, rfl⟩ := rank_eq_array (h ▸ h4)
        rw [compareValues_array, compareValues_array]
        refine lexOrd_swap fun x hx y _ => ih x y ?_
        have h1 := List.sizeOf_lt_of_mem hx
        have h2 : sizeOf (Value.array xs) = 1 + sizeOf xs := by simp
        omega
      · rw [compareValues_scalar h h4, compareValues_scalar h.symm (h ▸ h4),
          scalarCmp_swap h]
    · rw [compareValues_rank_gt h, compareValues_rank_lt h]; rfl

theorem compareValues_swap (a b : Value) :
    compareValues a b = (compareValues b a).swap :=
  compareValues_swap_aux (sizeOf a) a b (Nat.le_refl _)

/-- Transitivity table of a three-way comparison at a triple of points. -/
abbrev OrdTransAt (c : α → α → Ordering) (a b d : α) : Prop :=
  (c a b = .lt → c b d = .lt → c a d = .lt) ∧
  (c a b = .lt → c b d = .eq → c a d = .lt) ∧
  (c a b = .eq → c b d = .lt → c a d = .lt) ∧
  (c a b = .eq → c b d = .eq → c a d = .eq)

theorem natCmp_transAt (x y z : Nat) : OrdTransAt natCmp x y z := by
  simp only [OrdTransAt, natCmp_lt_iff, natCmp_eq_iff]
  omega

theorem ratCmp_transAt (x y z : ℚ) : OrdTransAt ratCmp x y z := by
  simp only [OrdTransAt, ratCmp_lt_iff, ratCmp_eq_iff]
  exact ⟨fun h1 h2 => h1.trans h2, fun h1 h2 => h2 ▸ h1,
    fun h1 h2 => h1 ▸ h2, fun h1 h2 => h1.trans h2⟩

theorem boolCmp_transAt (x y z : Bool) : OrdTransAt boolCmp x y z := by
  cases x <;> cases y <;> cases z <;> decide

theorem lexOrd_transAt {c : α → α → Ordering} :
    ∀ (l1 l2 l3 : List α),
      (∀ x ∈ l1, ∀ y ∈ l2, ∀ z ∈ l3, OrdTransAt c x y z) →
      OrdTransAt (lexOrd c) l1 l2 l3
  | [], l2, l3, _ => by
    cases l2 <;> cases l3 <;> simp [OrdTransAt, lexOrd]
  | _ :: _, [], l3, _ => by
    cases l3 <;> simp [OrdTransAt, lexOrd]
  | _ :: _, _ :: _, [], _ => by
    simp [OrdTransAt, lexOrd]
  | x :: xs, y :: ys, z :: zs, h => by
    obtain ⟨t1, t2, t3, t4⟩ :=
      h x (List.mem_cons_self x xs) y (List.mem_cons_self y ys) z (List.mem_cons_self z zs)
    obtain ⟨i1, i2, i3, i4⟩ :=
      lexOrd_transAt xs ys zs fun x' hx' y' hy' z' hz' =>
        h x' (List.mem_cons_of_mem _ hx') y' (List.mem_cons_of_mem _ hy')
          z' (List.mem_cons_of_mem _ hz')
    refine ⟨?_, ?_, ?_, ?_⟩ <;> intro h1 h2 <;>
      simp only [lexOrd] at h1 h2 ⊢
    · cases hxy : c x y with
      | lt =>
        cases hyz : c y z with
        | lt => simp [t1 hxy hyz]
        | eq => simp [t2 hxy hyz]
        | gt => rw [hyz] at h2; simp at h2
      | eq =>
        rw [hxy] at h1; simp at h1
        cases hyz : c y z with
        | lt => simp [t3 hxy hyz]
        | eq =>
          rw [hyz] at h2; simp at h2
          simp only [t4 hxy hyz]
          exact i1 h1 h2
        | gt => rw [hyz] at h2; simp at h2
      | gt => rw [hxy] at h1; simp at h1
    · cases hxy : c x y with
      | lt =>
        cases hyz : c y z with
        | lt => rw [hyz] at h2; simp at h2
        | eq => simp [t2 hxy hyz]
        | gt => rw [hyz] at h2; simp at h2
      | eq =>
        rw [hxy] at h1; simp at h1
        cases hyz : c y z with
        | lt => rw [hyz] at h2; simp at h2
        | eq =>
          rw [hyz] at h2; simp at h2
          simp only [t4 hxy hyz]
          exact i2 h1 h2
        | gt => rw [hyz] at h2; simp at h2
      | gt => rw [hxy] at h1; simp at h1
    · cases hxy : c x y with
      | lt => rw [hxy] at h1; simp at h1
      | eq =>
        rw [hxy] at h1; simp at h1
        cases hyz : c y z with
        | lt => simp [t3 hxy hyz]
        | eq =>
          rw [hyz] at h2; simp at h2
          simp only [t4 hxy hyz]
          exact i3 h1 h2
        | gt => rw [hyz] at h2; simp at h2
      | gt => rw [hxy] at h1; simp at h1
    · cases hxy : c x y with
      | lt => rw [hxy] at h1; simp at h1
      | eq =>
        rw [hxy] at h1; simp at h1
        cases hyz : c y z with
        | lt => rw [hyz] at h2; simp at h2
        | eq =>
          rw [hyz] at h2; simp at h2
          simp only [t4 hxy hyz]
          exact i4 h1 h2
        | gt => rw [hyz] at h2; simp at h2
      | gt => rw [hxy] at h1; simp at h1

theorem bytesCmp_transAt (u v w : Bytes) : OrdTransAt bytesCmp u v w :=
  lexOrd_transAt u v w fun x _ y _ z _ => natCmp_transAt x y z

theorem scalarCmp_transAt {a b d : Value} (hab : rank a = rank b)
    (hbd : rank b = rank d) : OrdTransAt scalarCmp a b d := by
  simp only [OrdTransAt, scalarCmp, ← hab]
  split_ifs
  · exact boolCmp_transAt _ _ _
  · exact ratCmp_transAt _ _ _
  · exact bytesCmp_transAt _ _ _
  · exact ⟨fun h1 _ => h1, fun h1 _ => h1, fun _ h2 => h2, fun h1 _ => h1⟩

theorem cv_rank_le_of_lt {a b : Value} (h : compareValues a b = .lt) :
    rank a ≤ rank b := by
  by_contra hc
  rw [compareValues_rank_gt (Nat.lt_of_not_le hc)] at h
  exact absurd h (by simp)

theorem cv_rank_eq_of_eq {a b : Value} (h : compareValues a b = .eq) :
    rank a = rank b := by
  rcases Nat.lt_trichotomy (rank a) (rank b) with hr | hr | hr
  · rw [compareValues_rank_lt hr] at h; exact absurd h (by simp)
  · exact hr
  · rw [compareValues_rank_gt hr] at h; exact absurd h (by simp)

theorem compareValues_transAt_aux :
    ∀ (n : Nat) (a b d : Value), sizeOf a ≤ n → OrdTransAt compareValues a b d := by
  intro n
  induction n with
  | zero =>
    intro a _ _ h
    exact absurd (Nat.le_trans (Value.one_le_sizeOf a) h) (by omega)
  | succ n ih =>
    intro a b d hn
    have hsr : rank a = rank b → rank b = rank d → OrdTransAt compareValues a b d := by
      intro hab hbd
      by_cases h4 : rank a = 4
      · obtain ⟨xs, rfl⟩ := rank_eq_array h4
        obtain ⟨ys, rfl⟩ := rank_eq_array (hab ▸ h4)
        obtain ⟨zs, rfl⟩ := rank_eq_array (hbd ▸ hab ▸ h4)
        have hsz : ∀ x ∈ xs, sizeOf x ≤ n := by
          intro x hx
          have h1 := List.sizeOf_lt_of_mem hx
          have h2 : sizeOf (Value.array xs) = 1 + sizeOf xs := by simp
          omega
        have harr := lexOrd_transAt xs ys zs fun x hx y _ z _ => ih x y z (hsz x hx)
        refine ⟨?_, ?_, ?_, ?_⟩ <;> intro h1 h2 <;>
          rw [compareValues_array] at h1 h2 ⊢
        exacts [harr.1 h1 h2, harr.2.1 h1 h2, harr.2.2.1 h1 h2, harr.2.2.2 h1 h2]
      · have e1 := compareValues_scalar hab h4
        have e2 := compareValues_scalar hbd (hab ▸ h4)
        have e3 := compareValues_scalar (hab.trans hbd) h4
        have hs := scalarCmp_transAt hab hbd
        refine ⟨?_, ?_, ?_, ?_⟩ <;> intro h1 h2 <;>
          rw [e1] at h1 <;> rw [e2] at h2 <;> rw [e3]
        exacts [hs.1 h1 h2, hs.2.1 h1 h2, hs.2.2.1 h1 h2, hs.2.2.2 h1 h2]
    refine ⟨?_, ?_, ?_, ?_⟩ <;> intro h1 h2
    · have r1 := cv_rank_le_of_lt h1
      have r2 := cv_rank_le_of_lt h2
      rcases Nat.lt_or_ge (rank a) (rank d) with hlt | hge
      · exact compareValues_rank_lt hlt
      · exact (hsr (by omega) (by omega)).1 h1 h2
    · have r1 := cv_rank_le_of_lt h1
      have r2 := cv_rank_eq_of_eq h2
      rcases Nat.lt_or_ge (rank a) (rank d) with hlt | hge
      · exact compareValues_rank_lt hlt
      · exact (hsr (by omega) (by omega)).2.1 h1 h2
    · have r1 := cv_rank_eq_of_eq h1
      have r2 := cv_rank_le_of_lt h2
      rcases Nat.lt_or_ge (rank a) (rank d) with hlt | hge
      · exact compareValues_rank_lt hlt
      · exact (hsr (by omega) (by omega)).2.2.1 h1 h2
    · have r1 := cv_rank_eq_of_eq h1
      have r2 := cv_rank_eq_of_eq h2
      exact (hsr r1 r2).2.2.2 h1 h2

theorem compareValues_transAt (a b d : Value) : OrdTransAt compareValues a b d :=
  compareValues_transAt_aux (sizeOf a) a b d (Nat.le_refl _)

/-- The non-strict order induced by the comparator: `a` is at most `b` when the
comparison does not yield GREATER. -/
def valueLE (a b : Value) : Prop := compareValues a b ≠ .gt

instance : DecidableRel valueLE := fun a b =>
  inferInstanceAs (Decidable (compareValues a b ≠ .gt))

instance : IsTotal Value valueLE where
  total a b := by
    by_cases h : compareValues a b = .gt
    · right
      unfold valueLE
      rw [compareValues_swap b a, h]
      simp [Ordering.swap]
    · exact Or.inl h

instance : IsTrans Value valueLE where
  trans a b d h1 h2 := by
    unfold valueLE at h1 h2 ⊢
    have t := compareValues_transAt a b d
    cases hab : compareValues a b with
    | lt =>
      cases hbd : compareValues b d with
      | lt => simp [t.1 hab hbd]
      | eq => simp [t.2.1 hab hbd]
      | gt => exact absurd hbd h2
    | eq =>
      cases hbd : compareValues b d with
      | lt => simp [t.2.2.1 hab hbd]
      | eq => simp [t.2.2.2 hab hbd]
      | gt => exact absurd hbd h2
    | gt => exact absurd hab h1

/-- Constructor mirroring the test helper NewIntValue. -/
def NewIntValue (i : Int) : Value := .integer i

/-- Constructor mirroring the test helper NewFloat64Value; the payload is the
numeric value of the Go float64. -/
def NewFloat64Value (q : ℚ) : Value := .double q

/-- Constructor mirroring the test helper NewTextValue. -/
def NewTextValue (s : String) : Value := .text (stringBytes s)

/-- Constructor mirroring the test helper NewBlobValue. -/
def NewBlobValue (b : Bytes) : Value := .blob b

/-- Constructor mirroring the test helper NewBoolValue. -/
def NewBoolValue (b : Bool) : Value := .bool b

/-- Modelled from the spec: ArrayContains (§4.1) is true iff some element of the
array compares EQUAL to the probe under the comparator.  Iterating a materialized
array cannot fail, so the membership test is total and never produces an error. -/
def ArrayContains (arr : List Value) (v : Value) : Bool :=
  arr.any fun x => compareValues x v == .eq

/-- Modelled from the spec: SortArray (§4.1) returns a new array holding the same
elements in ascending comparator order, stable for equal elements; the empty array
sorts to the empty array.  Stable insertion sort realizes the contract. -/
def SortArray (arr : List Value) : List Value := List.insertionSort valueLE arr

/-- C3: on the array [Integer 1, Text "foo", Blob [1,2,3]], ArrayContains finds
Double 1.0 (Integer and Double of equal numeric value compare EQUAL) and
Blob "foo" (Text and Blob with identical bytes compare EQUAL) but not Blob "bar";
ArrayContains over a materialized array is a total function, so no error is
produced in any of the three cases. -/
theorem arrayContains_cross_kind :
    ArrayContains [NewIntValue 1, NewTextValue "foo", NewBlobValue [1, 2, 3]]
        (NewFloat64Value 1) = true ∧
    ArrayContains [NewIntValue 1, NewTextValue "foo", NewBlobValue [1, 2, 3]]
        (NewBlobValue (stringBytes "foo")) = true ∧
    ArrayContains [NewIntValue 1, NewTextValue "foo", NewBlobValue [1, 2, 3]]
        (NewBlobValue (stringBytes "bar")) = false :=
  ⟨rfl, rfl, rfl⟩

/-- C5: sorting the mixed-kind array ["foo", ["a"], {}, null, true, 10] yields
[null, true, 10, "foo", ["a"], {}]: the comparator ranks the kinds in ascending
order Null < Bool < Number < Text < Blob < Array < Document. -/
theorem sortArray_mixed_kinds :
    SortArray [NewTextValue "foo", .array [NewTextValue "a"], .document [], .null,
        .bool true, NewIntValue 10] =
      [.null, .bool true, NewIntValue 10, NewTextValue "foo",
        .array [NewTextValue "a"], .document []] := rfl

theorem ordBeq_eq {o p : Ordering} (h : (o == p) = true) : o = p := by
  cases o <;> cases p <;> first | rfl | exact absurd h (by decide)

/-- C4: SortArray is idempotent, stable (the subsequence of elements comparing
EQUAL to any fixed value is preserved verbatim from the input), every pair of
adjacent output elements a, b satisfies comparator(a,b) ≤ 0 (never GREATER), and
the empty array sorts to the empty array.  In this materialized model every array
is accepted (element access cannot fail). -/
theorem sortArray_spec (l : List Value) :
    SortArray (SortArray l) = SortArray l ∧
    (∀ v : Value, (SortArray l).filter (fun x => compareValues x v == .eq) =
      l.filter (fun x => compareValues x v == .eq)) ∧
    (SortArray l).Chain' (fun a b => compareValues a b ≠ .gt) ∧
    SortArray ([] : List Value) = [] := by
  refine ⟨?_, ?_, ?_, rfl⟩
  · exact List.Sorted.insertionSort_eq (List.sorted_insertionSort valueLE l)
  · intro v
    have hfp : (l.filter (fun x => compareValues x v == .eq)).Pairwise valueLE := by
      apply List.pairwise_of_forall_mem_list
      intro a ha b hb
      rw [List.mem_filter] at ha hb
      have ha2 : compareValues a v = .eq := ordBeq_eq ha.2
      have hb2 : compareValues b v = .eq := ordBeq_eq hb.2
      have hvb : compareValues v b = .eq := by
        rw [compareValues_swap v b, hb2]; rfl
      have hab : compareValues a b = .eq :=
        (compareValues_transAt a v b).2.2.2 ha2 hvb
      simp [valueLE, hab]
    have hsubl : List.Sublist (l.filter (fun x => compareValues x v == .eq))
        (SortArray l) :=
      List.sublist_insertionSort hfp (List.filter_sublist l)
    have hperm : List.Perm
        ((SortArray l).filter (fun x => compareValues x v == .eq))
        (l.filter (fun x => compareValues x v == .eq)) :=
      (List.perm_insertionSort valueLE l).filter _
    have hself : (l.filter (fun x => compareValues x v == .eq)).filter
        (fun x => compareValues x v == .eq) =
        l.filter (fun x => compareValues x v == .eq) :=
      List.filter_eq_self.mpr fun a ha => (List.mem_filter.mp ha).2
    have hsub2 : List.Sublist (l.filter (fun x => compareValues x v == .eq))
        ((SortArray l).filter (fun x => compareValues x v == .eq)) := by
      rw [← hself]
      exact hsubl.filter _
    exact (hsub2.eq_of_length hperm.length_eq.symm).symm
  · exact List.Pairwise.chain' (List.sorted_insertionSort valueLE l)

theorem compareValues_document_eq (f1 f2 : List (Bytes × Value)) :
    compareValues (.document f1) (.document f2) = .eq := rfl

/-- C6: any two Document values compare EQUAL under the comparator, hence sorting
an array containing only documents is the identity (stability keeps the input
order); instantiated below on [{"z":10},{"a":40},{}]. -/
theorem documents_equal_rank_sort_id :
    (∀ f1 f2 : List (Bytes × Value),
      compareValues (.document f1) (.document f2) = .eq) ∧
    (∀ ds : List Value, (∀ d ∈ ds, ∃ fs, d = Value.document fs) →
      SortArray ds = ds) := by
  constructor
  · intro f1 f2
    exact compareValues_document_eq f1 f2
  · intro ds h
    apply List.Sorted.insertionSort_eq
    apply List.pairwise_of_forall_mem_list
    intro a ha b hb
    obtain ⟨fa, rfl⟩ := h a ha
    obtain ⟨fb, rfl⟩ := h b hb
    simp [valueLE, compareValues_document_eq]

/-- Witness for C6: the document array [{"z":10},{"a":40},{}] of the test sorts
to itself. -/
theorem documents_equal_rank_sort_id_witness :
    SortArray [.document [(stringBytes "z", NewIntValue 10)],
        .document [(stringBytes "a", NewIntValue 40)], .document []] =
      [.document [(stringBytes "z", NewIntValue 10)],
        .document [(stringBytes "a", NewIntValue 40)], .document []] := by
  apply documents_equal_rank_sort_id.2
  intro d hd
  simp only [List.mem_cons, List.not_mem_nil, or_false] at hd
  rcases hd with rfl | rfl | rfl
  · exact ⟨_, rfl⟩
  · exact ⟨_, rfl⟩
  · exact ⟨_, rfl⟩

/-! ## Binary record codec (§4.3, §6) -/

/-- Errors of the codec and document access layer (§7). -/
inductive DecodeError : Type where
  | malformedEncoding : DecodeError
  | fieldNotFound : DecodeError
deriving DecidableEq

/-- Little-endian 2-byte encoding of a natural below 2^16. -/
def u16LE (n : Nat) : Bytes := [n % 256, n / 256 % 256]

/-- Little-endian 4-byte encoding of a natural below 2^32. -/
def u32LE (n : Nat) : Bytes :=
  [n % 256, n / 256 % 256, n / 2 ^ 16 % 256, n / 2 ^ 24 % 256]

/-- Little-endian 8-byte encoding of a natural below 2^64. -/
def u64LE (n : Nat) : Bytes :=
  [n % 256, n / 2 ^ 8 % 256, n / 2 ^ 16 % 256, n / 2 ^ 24 % 256,
   n / 2 ^ 32 % 256, n / 2 ^ 40 % 256, n / 2 ^ 48 % 256, n / 2 ^ 56 % 256]

/-- Value of a little-endian digit list. -/
def fromLE : Bytes → Nat
  | [] => 0
  | b :: rest => b + 256 * fromLE rest

/-- Canonical little-endian base-256 digits of a natural (no trailing zero); the
first argument is recursion fuel, sufficient whenever at least the number itself. -/
def natLEAux : Nat → Nat → Bytes
  | 0, _ => []
  | f + 1, n => if n = 0 then [] else n % 256 :: natLEAux f (n / 256)

/-- Canonical little-endian base-256 digits of a natural. -/
def natLE (n : Nat) : Bytes := natLEAux n n

/-- 8-byte two's-complement payload of an Integer (fixed width per §4.3). -/
def intBytes (i : Int) : Bytes := u64LE (i % 2 ^ 64).toNat

/-- Payload of a Double: sign byte, 4-byte numerator-digit count, numerator
digits, denominator digits (delimited by the payload size).  §6 leaves integer
widths an implementation choice; the payload only needs to be self-consistent
and decodable from its recorded size. -/
def doubleBytes (q : ℚ) : Bytes :=
  (if q.num < 0 then 1 else 0) :: (u32LE (natLE q.num.natAbs).length ++
    (natLE q.num.natAbs ++ natLE q.den))

/-- Type tags of the binary format (an implementation choice per §6). -/
def tagOf : Value → Nat
  | .null => 1
  | .bool _ => 2
  | .integer _ => 3
  | .double _ => 4
  | .text _ => 5
  | .blob _ => 6
  | .array _ => 7
  | .document _ => 8

mutual

/-- Modelled from the spec: payload bytes of one value (§4.3): empty for Null,
one byte for Bool, 8 bytes for Integer, a self-delimited encoding for Double, the
raw bytes for Text/Blob, and a recursively encoded blob for Array/Document. -/
def payloadBytes : Value → Bytes
  | .null => []
  | .bool b => [if b then 1 else 0]
  | .integer i => intBytes i
  | .double q => doubleBytes q
  | .text s => s
  | .blob b => b
  | .array xs => u32LE xs.length ++ (elemDescBytes 0 xs ++ arrayBodyBytes xs)
  | .document fs => u32LE fs.length ++ (fieldDescBytes 0 fs ++ docBodyBytes fs)
termination_by structural v => v

/-- Array element descriptors: per element its type tag, payload size and
cumulative offset into the array body. -/
def elemDescBytes : Nat → List Value → Bytes
  | _, [] => []
  | off, x :: xs =>
    (tagOf x :: (u32LE (payloadBytes x).length ++ u32LE off)) ++
      elemDescBytes (off + (payloadBytes x).length) xs
termination_by structural _ l => l

/-- Array body: concatenation of the element payloads in order. -/
def arrayBodyBytes : List Value → Bytes
  | [] => []
  | x :: xs => payloadBytes x ++ arrayBodyBytes xs
termination_by structural l => l

/-- Document field descriptors (§6): per field its name length, name bytes, type
tag, payload size and cumulative offset into the body. -/
def fieldDescBytes : Nat → List (Bytes × Value) → Bytes
  | _, [] => []
  | off, (nm, v) :: fs =>
    (u16LE nm.length ++ (nm ++ (tagOf v :: (u32LE (payloadBytes v).length ++
      u32LE off)))) ++ fieldDescBytes (off + (payloadBytes v).length) fs
termination_by structural _ l => l

/-- Document body: concatenation of the field payloads in field order. -/
def docBodyBytes : List (Bytes × Value) → Bytes
  | [] => []
  | (_, v) :: fs => payloadBytes v ++ docBodyBytes fs
termination_by structural l => l

end

/-- Modelled from the spec: Encode (§4.3/§6) iterates the document buffer in field
order and writes Header = [field count, then one descriptor per field], followed
by Body = concatenation of the payloads; offsets are cumulative into the Body. -/
def Encode (fs : List (Bytes × Value)) : Bytes :=
  u32LE fs.length ++ (fieldDescBytes 0 fs ++ docBodyBytes fs)

/-- All bytes of a byte string are in range. -/
def bytesValid (b : Bytes) : Bool := b.all (fun x => decide (x < 256))

mutual

/-- Modelled from the spec: the values the construction API can build (§4.2):
integers are 64-bit, strings/blobs hold real bytes, and the encoded sizes fit the
fixed-width header fields of §6. -/
def validValue : Value → Bool
  | .null => true
  | .bool _ => true
  | .integer i => decide (-(2 ^ 63) ≤ i) && decide (i < 2 ^ 63)
  | .double q => decide ((natLE q.num.natAbs).length < 2 ^ 32)
  | .text s => bytesValid s
  | .blob b => bytesValid b
  | .array xs => decide (xs.length < 2 ^ 32) &&
      (decide ((arrayBodyBytes xs).length < 2 ^ 32) && validElems xs)
  | .document fs => decide (fs.length < 2 ^ 32) &&
      (decide ((docBodyBytes fs).length < 2 ^ 32) && validFields fs)
termination_by structural v => v

/-- Validity of array elements, with each payload size within the u32 header
field. -/
def validElems : List Value → Bool
  | [] => true
  | x :: xs => validValue x && (decide ((payloadBytes x).length < 2 ^ 32) &&
      validElems xs)
termination_by structural l => l

/-- Validity of document fields: names are real bytes shorter than 2^16 and each
payload size fits the u32 header field. -/
def validFields : List (Bytes × Value) → Bool
  | [] => true
  | (nm, v) :: fs => bytesValid nm && (decide (nm.length < 2 ^ 16) &&
      (validValue v && (decide ((payloadBytes v).length < 2 ^ 32) &&
        validFields fs)))
termination_by structural l => l

end

/-- Validity of a whole document buffer (the document value built from it is
valid). -/
def validDoc (fs : List (Bytes × Value)) : Bool := validValue (.document fs)

mutual

/-- Nesting depth of a value (used to bound decoder fuel). -/
def vdepth : Value → Nat
  | .array xs => 1 + ldepth xs
  | .document fs => 1 + fdepth fs
  | _ => 1
termination_by structural v => v

/-- Maximum nesting depth over array elements. -/
def ldepth : List Value → Nat
  | [] => 0
  | x :: xs => max (vdepth x) (ldepth xs)
termination_by structural l => l

/-- Maximum nesting depth over document field values. -/
def fdepth : List (Bytes × Value) → Nat
  | [] => 0
  | (_, v) :: fs => max (vdepth v) (fdepth fs)
termination_by structural l => l

end

/-- One field descriptor of the decoded Header (§6). -/
structure FieldHeader : Type where
  nameSize : Nat
  name : Bytes
  ftype : Nat
  size : Nat
  offset : Nat
deriving DecidableEq

/-- The decoded Header: field count and one descriptor per field. -/
structure Header : Type where
  fieldsCount : Nat
  fieldHeaders : List FieldHeader
deriving DecidableEq

/-- Sum of the declared field sizes, the body size recorded by the Header. -/
def Header.bodySize (h : Header) : Nat := (h.fieldHeaders.map FieldHeader.size).sum

/-- A decoded record: Header plus the raw Body bytes (payloads undecoded). -/
structure Format : Type where
  header : Header
  body : Bytes
deriving DecidableEq

/-- Read exactly k bytes, returning them and the remainder. -/
def readBytes (k : Nat) (b : Bytes) : Except DecodeError (Bytes × Bytes) :=
  if k ≤ b.length then .ok (b.take k, b.drop k) else .error .malformedEncoding

/-- Read a 1-byte number. -/
def readU8 (b : Bytes) : Except DecodeError (Nat × Bytes) := do
  let (x, r) ← readBytes 1 b
  .ok (fromLE x, r)

/-- Read a little-endian 2-byte number. -/
def readU16 (b : Bytes) : Except DecodeError (Nat × Bytes) := do
  let (x, r) ← readBytes 2 b
  .ok (fromLE x, r)

/-- Read a little-endian 4-byte number. -/
def readU32 (b : Bytes) : Except DecodeError (Nat × Bytes) := do
  let (x, r) ← readBytes 4 b
  .ok (fromLE x, r)

/-- Parse one field descriptor. -/
def parseFieldHeader (b : Bytes) : Except DecodeError (FieldHeader × Bytes) := do
  let (ns, r1) ← readU16 b
  let (nm, r2) ← readBytes ns r1
  let (t, r3) ← readU8 r2
  let (sz, r4) ← readU32 r3
  let (off, r5) ← readU32 r4
  .ok (⟨ns, nm, t, sz, off⟩, r5)

/-- Parse the given number of field descriptors. -/
def parseFieldHeaders : Nat → Bytes → Except DecodeError (List FieldHeader × Bytes)
  | 0, b => .ok ([], b)
  | n + 1, b => do
    let (fh, r) ← parseFieldHeader b
    let (fhs, r2) ← parseFieldHeaders n r
    .ok (fh :: fhs, r2)

/-- One element descriptor of an encoded array payload. -/
structure ElemHeader : Type where
  etype : Nat
  size : Nat
  offset : Nat
deriving DecidableEq

/-- Parse one array element descriptor. -/
def parseElemHeader (b : Bytes) : Except DecodeError (ElemHeader × Bytes) := do
  let (t, r1) ← readU8 b
  let (sz, r2) ← readU32 r1
  let (off, r3) ← readU32 r2
  .ok (⟨t, sz, off⟩, r3)

/-- Parse the given number of array element descriptors. -/
def parseElemHeaders : Nat → Bytes → Except DecodeError (List ElemHeader × Bytes)
  | 0, b => .ok ([], b)
  | n + 1, b => do
    let (eh, r) ← parseElemHeader b
    let (ehs, r2) ← parseElemHeaders n r
    .ok (eh :: ehs, r2)

/-- The payload slice [off, off+sz) of a body, bounds-checked. -/
def sliceAt (body : Bytes) (off sz : Nat) : Except DecodeError Bytes :=
  if off + sz ≤ body.length then .ok ((body.drop off).take sz)
  else .error .malformedEncoding

/-- Modelled from the spec: Format.Decode (§4.3) parses the Header eagerly in one
linear pass, takes the remaining bytes as the Body, and checks the invariant
Header.bodySize() == len(Body); no payload is decoded. -/
def decodeFormat (b : Bytes) : Except DecodeError Format := do
  let (cnt, r) ← readU32 b
  let (fhs, body) ← parseFieldHeaders cnt r
  if Header.bodySize ⟨cnt, fhs⟩ = body.length then .ok ⟨⟨cnt, fhs⟩, body⟩
  else .error .malformedEncoding

/-- Decode each array element from its body slice, in descriptor order. -/
def decodeElemsWith (dv : Nat → Bytes → Except DecodeError Value) (body : Bytes) :
    List ElemHeader → Except DecodeError (List Value)
  | [] => .ok []
  | eh :: rest => do
    let s ← sliceAt body eh.offset eh.size
    let v ← dv eh.etype s
    let vs ← decodeElemsWith dv body rest
    .ok (v :: vs)

/-- Decode each document field from its body slice, in descriptor order. -/
def decodeFieldsWith (dv : Nat → Bytes → Except DecodeError Value) (body : Bytes) :
    List FieldHeader → Except DecodeError (List (Bytes × Value))
  | [] => .ok []
  | fh :: rest => do
    let s ← sliceAt body fh.offset fh.size
    let v ← dv fh.ftype s
    let fs ← decodeFieldsWith dv body rest
    .ok ((fh.name, v) :: fs)

/-- Fuel-indexed payload decoder: inverse of payloadBytes given the type tag and
the exact payload slice.  The fuel bounds the nesting depth only. -/
def decodeValueF : Nat → Nat → Bytes → Except DecodeError Value
  | 0, _, _ => .error .malformedEncoding
  | f + 1, t, b =>
    if t = 1 then
      if b = [] then .ok .null else .error .malformedEncoding
    else if t = 2 then
      if b = [0] then .ok (.bool false)
      else if b = [1] then .ok (.bool true)
      else .error .malformedEncoding
    else if t = 3 then
      if b.length = 8 then
        .ok (.integer (if fromLE b < 2 ^ 63 then (fromLE b : Int)
          else (fromLE b : Int) - 2 ^ 64))
      else .error .malformedEncoding
    else if t = 4 then
      match b with
      | [] => .error .malformedEncoding
      | sign :: rest => do
        let (k, r1) ← readU32 rest
        let (numd, dend) ← readBytes k r1
        if sign = 0 ∨ sign = 1 then
          .ok (.double (mkRat (if sign = 1 then -(fromLE numd : Int)
            else (fromLE numd : Int)) (fromLE dend)))
        else .error .malformedEncoding
    else if t = 5 then .ok (.text b)
    else if t = 6 then .ok (.blob b)
    else if t = 7 then do
      let (cnt, r) ← readU32 b
      let (ehs, body) ← parseElemHeaders cnt r
      if (ehs.map ElemHeader.size).sum = body.length then do
        let vs ← decodeElemsWith (decodeValueF f) body ehs
        .ok (.array vs)
      else .error .malformedEncoding
    else if t = 8 then do
      let (cnt, r) ← readU32 b
      let (fhs, body) ← parseFieldHeaders cnt r
      if (fhs.map FieldHeader.size).sum = body.length then do
        let fs ← decodeFieldsWith (decodeValueF f) body fhs
        .ok (.document fs)
      else .error .malformedEncoding
    else .error .malformedEncoding

/-- Payload decoder with its standard fuel (any fuel above the value's nesting
depth gives the same result; the correctness proofs supply sufficient fuel). -/
def decodeValue (t : Nat) (b : Bytes) : Except DecodeError Value :=
  decodeValueF (b.length + 1) t b

/-- Modelled from the spec: iterating the lazy record view (§4.3) walks the
descriptors in header order, decoding each payload from its body slice as it is
visited. -/
def iterateFormat (f : Format) : Except DecodeError (List (Bytes × Value)) :=
  decodeFieldsWith decodeValue f.body f.header.fieldHeaders

/-- Full decode followed by a full iterate: the (name, Value) sequence of an
encoded record. -/
def decodeDocBytes (b : Bytes) : Except DecodeError (List (Bytes × Value)) := do
  let f ← decodeFormat b
  iterateFormat f

/-- Modelled from the spec: DecodeField (§4.3) parses the Header, linearly scans
the descriptors for the first name match, and decodes only that field's payload
slice; it fails FieldNotFound when no descriptor matches. -/
def DecodeField (b : Bytes) (nm : Bytes) : Except DecodeError Value := do
  let (cnt, r) ← readU32 b
  let (fhs, body) ← parseFieldHeaders cnt r
  match fhs.find? (fun fh => decide (fh.name = nm)) with
  | some fh => do
    let s ← sliceAt body fh.offset fh.size
    decodeValue fh.ftype s
  | none => .error .fieldNotFound

/-- First field of the given name in a document buffer (iteration order). -/
def lookupField : List (Bytes × Value) → Bytes → Option Value
  | [], _ => none
  | (n, v) :: fs, nm => if n = nm then some v else lookupField fs nm

theorem exceptBind_ok {α β : Type} (a : α) (f : α → Except DecodeError β) :
    (Except.ok a >>= f) = f a := rfl

theorem fromLE_u16 {n : Nat} (h : n < 2 ^ 16) : fromLE (u16LE n) = n := by
  simp only [u16LE, fromLE]
  omega

theorem fromLE_u32 {n : Nat} (h : n < 2 ^ 32) : fromLE (u32LE n) = n := by
  simp only [u32LE, fromLE]
  omega

theorem fromLE_u64 {n : Nat} (h : n < 2 ^ 64) : fromLE (u64LE n) = n := by
  simp only [u64LE, fromLE]
  omega

theorem readBytes_exact (xs : Bytes) (k : Nat) (r : Bytes) (h : xs.length = k) :
    readBytes k (xs ++ r) = .ok (xs, r) := by
  unfold readBytes
  rw [if_pos (by rw [List.length_append]; omega), List.take_left' h,
    List.drop_left' h]

theorem readU8_cons (t : Nat) (r : Bytes) : readU8 (t :: r) = .ok (t, r) := by
  have h : readBytes 1 ([t] ++ r) = .ok ([t], r) := readBytes_exact [t] 1 r rfl
  unfold readU8
  rw [List.singleton_append] at h
  rw [h, exceptBind_ok]
  show Except.ok (t + 256 * 0, r) = _
  norm_num

theorem readU16_u16LE {n : Nat} (h : n < 2 ^ 16) (r : Bytes) :
    readU16 (u16LE n ++ r) = .ok (n, r) := by
  unfold readU16
  rw [readBytes_exact (u16LE n) 2 r rfl, exceptBind_ok]
  show Except.ok (fromLE (u16LE n), r) = _
  rw [fromLE_u16 h]

theorem readU32_u32LE {n : Nat} (h : n < 2 ^ 32) (r : Bytes) :
    readU32 (u32LE n ++ r) = .ok (n, r) := by
  unfold readU32
  rw [readBytes_exact (u32LE n) 4 r rfl, exceptBind_ok]
  show Except.ok (fromLE (u32LE n), r) = _
  rw [fromLE_u32 h]

theorem natLEAux_fromLE : ∀ (f n : Nat), n ≤ f → fromLE (natLEAux f n) = n := by
  intro f
  induction f with
  | zero =>
    intro n h
    have : n = 0 := by omega
    subst this
    rfl
  | succ f ih =>
    intro n h
    by_cases h0 : n = 0
    · subst h0; rfl
    · have hdiv : n / 256 ≤ f := by
        have := Nat.div_le_self n 256
        have : n / 256 < n := Nat.div_lt_self (by omega) (by omega)
        omega
      simp only [natLEAux, if_neg h0, fromLE, ih (n / 256) hdiv]
      omega

theorem fromLE_natLE (n : Nat) : fromLE (natLE n) = n :=
  natLEAux_fromLE n n (Nat.le_refl n)

/-- The descriptors the encoder writes for a field list, given the offset where
its first payload lands in the body. -/
def headersOf : Nat → List (Bytes × Value) → List FieldHeader
  | _, [] => []
  | off, (nm, v) :: fs =>
    ⟨nm.length, nm, tagOf v, (payloadBytes v).length, off⟩ ::
      headersOf (off + (payloadBytes v).length) fs

/-- The element descriptors the encoder writes for an array, given the offset of
the first payload. -/
def elemHeadersOf : Nat → List Value → List ElemHeader
  | _, [] => []
  | off, x :: xs =>
    ⟨tagOf x, (payloadBytes x).length, off⟩ ::
      elemHeadersOf (off + (payloadBytes x).length) xs

theorem docBodyBytes_cons (nm : Bytes) (v : Value) (fs : List (Bytes × Value)) :
    docBodyBytes ((nm, v) :: fs) = payloadBytes v ++ docBodyBytes fs := rfl

theorem arrayBodyBytes_cons (x : Value) (xs : List Value) :
    arrayBodyBytes (x :: xs) = payloadBytes x ++ arrayBodyBytes xs := rfl

theorem headersOf_sizes :
    ∀ (fs : List (Bytes × Value)) (off : Nat),
      ((headersOf off fs).map FieldHeader.size).sum = (docBodyBytes fs).length
  | [], _ => rfl
  | (nm, v) :: fs, off => by
    simp only [headersOf, List.map_cons, List.sum_cons, docBodyBytes_cons,
      List.length_append, headersOf_sizes fs]

theorem elemHeadersOf_sizes :
    ∀ (xs : List Value) (off : Nat),
      ((elemHeadersOf off xs).map ElemHeader.size).sum = (arrayBodyBytes xs).length
  | [], _ => rfl
  | x :: xs, off => by
    simp only [elemHeadersOf, List.map_cons, List.sum_cons, arrayBodyBytes_cons,
      List.length_append, elemHeadersOf_sizes xs]

theorem parseFieldHeader_encoded (nm : Bytes) (v : Value) (off : Nat) (r : Bytes)
    (hn : nm.length < 2 ^ 16) (hs : (payloadBytes v).length < 2 ^ 32)
    (ho : off < 2 ^ 32) :
    parseFieldHeader ((u16LE nm.length ++ (nm ++ (tagOf v ::
        (u32LE (payloadBytes v).length ++ u32LE off)))) ++ r) =
      .ok (⟨nm.length, nm, tagOf v, (payloadBytes v).length, off⟩, r) := by
  unfold parseFieldHeader
  rw [List.append_assoc, readU16_u16LE hn, exceptBind_ok]
  show (do
    let (nm2, r2) ← readBytes nm.length ((nm ++ (tagOf v ::
      (u32LE (payloadBytes v).length ++ u32LE off))) ++ r)
    let (t, r3) ← readU8 r2
    let (sz, r4) ← readU32 r3
    let (off2, r5) ← readU32 r4
    Except.ok ((⟨nm.length, nm2, t, sz, off2⟩ : FieldHeader), r5)) = _
  rw [List.append_assoc, readBytes_exact nm nm.length _ rfl, exceptBind_ok]
  show (do
    let (t, r3) ← readU8 ((tagOf v :: (u32LE (payloadBytes v).length ++
      u32LE off)) ++ r)
    let (sz, r4) ← readU32 r3
    let (off2, r5) ← readU32 r4
    Except.ok ((⟨nm.length, nm, t, sz, off2⟩ : FieldHeader), r5)) = _
  rw [List.cons_append, readU8_cons, exceptBind_ok]
  show (do
    let (sz, r4) ← readU32 ((u32LE (payloadBytes v).length ++ u32LE off) ++ r)
    let (off2, r5) ← readU32 r4
    Except.ok ((⟨nm.length, nm, tagOf v, sz, off2⟩ : FieldHeader), r5)) = _
  rw [List.append_assoc, readU32_u32LE hs, exceptBind_ok]
  show (do
    let (off2, r5) ← readU32 (u32LE off ++ r)
    Except.ok ((⟨nm.length, nm, tagOf v, (payloadBytes v).length, off2⟩ :
      FieldHeader), r5)) = _
  rw [readU32_u32LE ho, exceptBind_ok]

theorem parseElemHeader_encoded (v : Value) (off : Nat) (r : Bytes)
    (hs : (payloadBytes v).length < 2 ^ 32) (ho : off < 2 ^ 32) :
    parseElemHeader ((tagOf v :: (u32LE (payloadBytes v).length ++ u32LE off)) ++ r) =
      .ok (⟨tagOf v, (payloadBytes v).length, off⟩, r) := by
  unfold parseElemHeader
  rw [List.cons_append, readU8_cons, exceptBind_ok]
  show (do
    let (sz, r2) ← readU32 ((u32LE (payloadBytes v).length ++ u32LE off) ++ r)
    let (off2, r3) ← readU32 r2
    Except.ok ((⟨tagOf v, sz, off2⟩ : ElemHeader), r3)) = _
  rw [List.append_assoc, readU32_u32LE hs, exceptBind_ok]
  show (do
    let (off2, r3) ← readU32 (u32LE off ++ r)
    Except.ok ((⟨tagOf v, (payloadBytes v).length, off2⟩ : ElemHeader), r3)) = _
  rw [readU32_u32LE ho, exceptBind_ok]

theorem validFields_cons {nm : Bytes} {v : Value} {fs : List (Bytes × Value)}
    (h : validFields ((nm, v) :: fs) = true) :
    bytesValid nm = true ∧ nm.length < 2 ^ 16 ∧ validValue v = true ∧
      (payloadBytes v).length < 2 ^ 32 ∧ validFields fs = true := by
  simp only [validFields, Bool.and_eq_true, decide_eq_true_eq] at h
  exact ⟨h.1, h.2.1, h.2.2.1, h.2.2.2.1, h.2.2.2.2⟩

theorem validElems_cons {x : Value} {xs : List Value}
    (h : validElems (x :: xs) = true) :
    validValue x = true ∧ (payloadBytes x).length < 2 ^ 32 ∧
      validElems xs = true := by
  simp only [validElems, Bool.and_eq_true, decide_eq_true_eq] at h
  exact ⟨h.1, h.2.1, h.2.2⟩

theorem parseFieldHeaders_encoded :
    ∀ (fs : List (Bytes × Value)) (off : Nat) (r : Bytes),
      validFields fs = true → off + (docBodyBytes fs).length < 2 ^ 32 →
      parseFieldHeaders fs.length (fieldDescBytes off fs ++ r) =
        .ok (headersOf off fs, r)
  | [], _, r, _, _ => rfl
  | (nm, v) :: fs, off, r, hv, hb => by
    obtain ⟨h1, h2, h3, h4, h5⟩ := validFields_cons hv
    have hblen : (docBodyBytes ((nm, v) :: fs)).length =
        (payloadBytes v).length + (docBodyBytes fs).length := by
      rw [docBodyBytes_cons, List.length_append]
    show parseFieldHeaders (fs.length + 1)
      (fieldDescBytes off ((nm, v) :: fs) ++ r) = _
    unfold parseFieldHeaders
    rw [show fieldDescBytes off ((nm, v) :: fs) =
      (u16LE nm.length ++ (nm ++ (tagOf v :: (u32LE (payloadBytes v).length ++
        u32LE off)))) ++ fieldDescBytes (off + (payloadBytes v).length) fs from rfl]
    rw [List.append_assoc,
      parseFieldHeader_encoded nm v off _ h2 h4 (by omega), exceptBind_ok]
    show (do
      let (fhs, r2) ← parseFieldHeaders fs.length
        (fieldDescBytes (off + (payloadBytes v).length) fs ++ r)
      Except.ok ((⟨nm.length, nm, tagOf v, (payloadBytes v).length, off⟩ :
        FieldHeader) :: fhs, r2)) = _
    rw [parseFieldHeaders_encoded fs (off + (payloadBytes v).length) r h5
      (by omega), exceptBind_ok]
    rfl

theorem parseElemHeaders_encoded :
    ∀ (xs : List Value) (off : Nat) (r : Bytes),
      validElems xs = true → off + (arrayBodyBytes xs).length < 2 ^ 32 →
      parseElemHeaders xs.length (elemDescBytes off xs ++ r) =
        .ok (elemHeadersOf off xs, r)
  | [], _, r, _, _ => rfl
  | x :: xs, off, r, hv, hb => by
    obtain ⟨h1, h2, h3⟩ := validElems_cons hv
    have hblen : (arrayBodyBytes (x :: xs)).length =
        (payloadBytes x).length + (arrayBodyBytes xs).length := by
      rw [arrayBodyBytes_cons, List.length_append]
    show parseElemHeaders (xs.length + 1) (elemDescBytes off (x :: xs) ++ r) = _
    unfold parseElemHeaders
    rw [show elemDescBytes off (x :: xs) =
      (tagOf x :: (u32LE (payloadBytes x).length ++ u32LE off)) ++
        elemDescBytes (off + (payloadBytes x).length) xs from rfl]
    rw [List.append_assoc,
      parseElemHeader_encoded x off _ h2 (by omega), exceptBind_ok]
    show (do
      let (ehs, r2) ← parseElemHeaders xs.length
        (elemDescBytes (off + (payloadBytes x).length) xs ++ r)
      Except.ok ((⟨tagOf x, (payloadBytes x).length, off⟩ : ElemHeader) :: ehs,
        r2)) = _
    rw [parseElemHeaders_encoded xs (off + (payloadBytes x).length) r h3
      (by omega), exceptBind_ok]
    rfl

theorem sliceAt_encoded (pre p rest : Bytes) :
    sliceAt (pre ++ (p ++ rest)) pre.length p.length = .ok p := by
  unfold sliceAt
  rw [if_pos (by simp [List.length_append])]
  rw [List.drop_left' rfl, List.take_left' rfl]

theorem decodeFieldsWith_encoded :
    ∀ (fs : List (Bytes × Value)) (pre : Bytes)
      (dv : Nat → Bytes → Except DecodeError Value),
      (∀ p ∈ fs, dv (tagOf p.2) (payloadBytes p.2) = .ok p.2) →
      decodeFieldsWith dv (pre ++ docBodyBytes fs) (headersOf pre.length fs) =
        .ok fs
  | [], pre, dv, _ => rfl
  | (nm, v) :: fs, pre, dv, h => by
    show decodeFieldsWith dv (pre ++ docBodyBytes ((nm, v) :: fs))
      ((⟨nm.length, nm, tagOf v, (payloadBytes v).length, pre.length⟩ :
        FieldHeader) :: headersOf (pre.length + (payloadBytes v).length) fs) = _
    unfold decodeFieldsWith
    rw [docBodyBytes_cons]
    rw [show (sliceAt (pre ++ (payloadBytes v ++ docBodyBytes fs)) pre.length
      (payloadBytes v).length) = .ok (payloadBytes v) from
      sliceAt_encoded pre (payloadBytes v) (docBodyBytes fs), exceptBind_ok]
    show (do
      let v2 ← dv (tagOf v) (payloadBytes v)
      let fs2 ← decodeFieldsWith dv (pre ++ (payloadBytes v ++ docBodyBytes fs))
        (headersOf (pre.length + (payloadBytes v).length) fs)
      Except.ok ((nm, v2) :: fs2)) = _
    rw [h (nm, v) (List.mem_cons_self _ _), exceptBind_ok]
    have hlen : pre.length + (payloadBytes v).length =
        (pre ++ payloadBytes v).length := (List.length_append _ _).symm
    rw [← List.append_assoc, hlen,
      decodeFieldsWith_encoded fs (pre ++ payloadBytes v) dv
        (fun p hp => h p (List.mem_cons_of_mem _ hp)), exceptBind_ok]

theorem decodeElemsWith_encoded :
    ∀ (xs : List Value) (pre : Bytes)
      (dv : Nat → Bytes → Except DecodeError Value),
      (∀ x ∈ xs, dv (tagOf x) (payloadBytes x) = .ok x) →
      decodeElemsWith dv (pre ++ arrayBodyBytes xs) (elemHeadersOf pre.length xs) =
        .ok xs
  | [], pre, dv, _ => rfl
  | x :: xs, pre, dv, h => by
    show decodeElemsWith dv (pre ++ arrayBodyBytes (x :: xs))
      ((⟨tagOf x, (payloadBytes x).length, pre.length⟩ : ElemHeader) ::
        elemHeadersOf (pre.length + (payloadBytes x).length) xs) = _
    unfold decodeElemsWith
    rw [arrayBodyBytes_cons]
    rw [show (sliceAt (pre ++ (payloadBytes x ++ arrayBodyBytes xs)) pre.length
      (payloadBytes x).length) = .ok (payloadBytes x) from
      sliceAt_encoded pre (payloadBytes x) (arrayBodyBytes xs), exceptBind_ok]
    show (do
      let v2 ← dv (tagOf x) (payloadBytes x)
      let xs2 ← decodeElemsWith dv (pre ++ (payloadBytes x ++ arrayBodyBytes xs))
        (elemHeadersOf (pre.length + (payloadBytes x).length) xs)
      Except.ok (v2 :: xs2)) = _
    rw [h x (List.mem_cons_self _ _), exceptBind_ok]
    have hlen : pre.length + (payloadBytes x).length =
        (pre ++ payloadBytes x).length := (List.length_append _ _).symm
    rw [← List.append_assoc, hlen,
      decodeElemsWith_encoded xs (pre ++ payloadBytes x) dv
        (fun y hy => h y (List.mem_cons_of_mem _ hy)), exceptBind_ok]

theorem vdepth_pos (v : Value) : 1 ≤ vdepth v := by
  cases v <;> simp [vdepth]

theorem ldepth_mem : ∀ {xs : List Value} {x : Value}, x ∈ xs →
    vdepth x ≤ ldepth xs := by
  intro xs
  induction xs with
  | nil => intro x hx; cases hx
  | cons y ys ih =>
    intro x hx
    rcases List.mem_cons.mp hx with rfl | hx'
    · simp [ldepth]
    · simp only [ldepth]
      exact Nat.le_trans (ih hx') (Nat.le_max_right _ _)

theorem fdepth_mem : ∀ {fs : List (Bytes × Value)} {p : Bytes × Value}, p ∈ fs →
    vdepth p.2 ≤ fdepth fs := by
  intro fs
  induction fs with
  | nil => intro p hp; cases hp
  | cons q qs ih =>
    intro p hp
    rcases List.mem_cons.mp hp with rfl | hp'
    · rcases p with ⟨nm, v⟩
      simp [fdepth]
    · rcases q with ⟨nm, v⟩
      simp only [fdepth]
      exact Nat.le_trans (ih hp') (Nat.le_max_right _ _)

theorem validValue_array {xs : List Value} (h : validValue (.array xs) = true) :
    xs.length < 2 ^ 32 ∧ (arrayBodyBytes xs).length < 2 ^ 32 ∧
      validElems xs = true := by
  simp only [validValue, Bool.and_eq_true, decide_eq_true_eq] at h
  exact ⟨h.1, h.2.1, h.2.2⟩

theorem validValue_document {fs : List (Bytes × Value)}
    (h : validValue (.document fs) = true) :
    fs.length < 2 ^ 32 ∧ (docBodyBytes fs).length < 2 ^ 32 ∧
      validFields fs = true := by
  simp only [validValue, Bool.and_eq_true, decide_eq_true_eq] at h
  exact ⟨h.1, h.2.1, h.2.2⟩

theorem validValue_integer {i : Int} (h : validValue (.integer i) = true) :
    -(2 ^ 63) ≤ i ∧ i < 2 ^ 63 := by
  simp only [validValue, Bool.and_eq_true, decide_eq_true_eq] at h
  exact h

theorem validValue_double {q : ℚ} (h : validValue (.double q) = true) :
    (natLE q.num.natAbs).length < 2 ^ 32 := by
  simp only [validValue, decide_eq_true_eq] at h
  exact h

theorem validElems_mem : ∀ {xs : List Value}, validElems xs = true →
    ∀ x ∈ xs, validValue x = true := by
  intro xs
  induction xs with
  | nil => intro _ x hx; cases hx
  | cons y ys ih =>
    intro h x hx
    obtain ⟨h1, _, h3⟩ := validElems_cons h
    rcases List.mem_cons.mp hx with rfl | hx'
    · exact h1
    · exact ih h3 x hx'

theorem validFields_memValue : ∀ {fs : List (Bytes × Value)},
    validFields fs = true → ∀ p ∈ fs, validValue p.2 = true := by
  intro fs
  induction fs with
  | nil => intro _ p hp; cases hp
  | cons q qs ih =>
    intro h p hp
    rcases q with ⟨nm, v⟩
    obtain ⟨_, _, h3, _, h5⟩ := validFields_cons h
    rcases List.mem_cons.mp hp with rfl | hp'
    · exact h3
    · exact ih h5 p hp'

theorem decodeValueF_payload :
    ∀ (n : Nat) (v : Value) (f : Nat), sizeOf v ≤ n → vdepth v ≤ f →
      validValue v = true → decodeValueF f (tagOf v) (payloadBytes v) = .ok v := by
  intro n
  induction n with
  | zero =>
    intro v _ h _ _
    exact absurd (Nat.le_trans (Value.one_le_sizeOf v) h) (by omega)
  | succ n ih =>
    intro v f hn hd hv
    have hf1 : 1 ≤ f := Nat.le_trans (vdepth_pos v) hd
    cases f with
    | zero => omega
    | succ f0 =>
      cases v with
      | null => rfl
      | bool b => cases b <;> rfl
      | integer i =>
        obtain ⟨hlo, hhi⟩ := validValue_integer hv
        have hm0 : 0 ≤ i % 2 ^ 64 := Int.emod_nonneg i (by norm_num)
        have hml : i % 2 ^ 64 < 2 ^ 64 := Int.emod_lt_of_pos i (by norm_num)
        have hmn : (i % 2 ^ 64).toNat < 2 ^ 64 := by omega
        show (if (intBytes i).length = 8 then
            Except.ok (Value.integer (if fromLE (intBytes i) < 2 ^ 63
              then (fromLE (intBytes i) : Int)
              else (fromLE (intBytes i) : Int) - 2 ^ 64))
          else Except.error DecodeError.malformedEncoding) = Except.ok (Value.integer i)
        rw [if_pos (by simp [intBytes, u64LE])]
        unfold intBytes
        rw [fromLE_u64 hmn]
        have hcast : ((i % 2 ^ 64).toNat : Int) = i % 2 ^ 64 :=
          Int.toNat_of_nonneg hm0
        have hrep : i % 2 ^ 64 = i ∨ i % 2 ^ 64 = i + 2 ^ 64 := by
          omega
        split_ifs with hlt
        · simp only [Except.ok.injEq, Value.integer.injEq]
          omega
        · simp only [Except.ok.injEq, Value.integer.injEq]
          omega
      | double q =>
        have hk := validValue_double hv
        show (match doubleBytes q with
          | [] => Except.error DecodeError.malformedEncoding
          | sign :: rest => do
            let (k, r1) ← readU32 rest
            let (numd, dend) ← readBytes k r1
            if sign = 0 ∨ sign = 1 then
              Except.ok (Value.double (mkRat (if sign = 1 then -(fromLE numd : Int)
                else (fromLE numd : Int)) (fromLE dend)))
            else Except.error DecodeError.malformedEncoding) = Except.ok (Value.double q)
        rw [show doubleBytes q = (if q.num < 0 then 1 else 0) ::
          (u32LE (natLE q.num.natAbs).length ++
            (natLE q.num.natAbs ++ natLE q.den)) from rfl]
        show (do
          let (k, r1) ← readU32 (u32LE (natLE q.num.natAbs).length ++
            (natLE q.num.natAbs ++ natLE q.den))
          let (numd, dend) ← readBytes k r1
          if (if q.num < 0 then 1 else 0) = 0 ∨ (if q.num < 0 then 1 else 0) = 1
          then
            Except.ok (Value.double (mkRat
              (if (if q.num < 0 then 1 else 0) = 1 then -(fromLE numd : Int)
                else (fromLE numd : Int)) (fromLE dend)))
          else Except.error DecodeError.malformedEncoding) = Except.ok (Value.double q)
        rw [readU32_u32LE hk, exceptBind_ok]
        show (do
          let (numd, dend) ← readBytes (natLE q.num.natAbs).length
            (natLE q.num.natAbs ++ natLE q.den)
          if (if q.num < 0 then 1 else 0) = 0 ∨ (if q.num < 0 then 1 else 0) = 1
          then
            Except.ok (Value.double (mkRat
              (if (if q.num < 0 then 1 else 0) = 1 then -(fromLE numd : Int)
                else (fromLE numd : Int)) (fromLE dend)))
          else Except.error DecodeError.malformedEncoding) = Except.ok (Value.double q)
        rw [readBytes_exact (natLE q.num.natAbs) _ _ rfl, exceptBind_ok]
        show (if (if q.num < 0 then 1 else 0) = 0 ∨
            (if q.num < 0 then 1 else 0) = 1 then
            Except.ok (Value.double (mkRat
              (if (if q.num < 0 then 1 else 0) = 1
                then -(fromLE (natLE q.num.natAbs) : Int)
                else (fromLE (natLE q.num.natAbs) : Int))
              (fromLE (natLE q.den))))
          else Except.error DecodeError.malformedEncoding) = Except.ok (Value.double q)
        rw [fromLE_natLE, fromLE_natLE]
        by_cases hneg : q.num < 0
        · rw [if_pos hneg, if_pos (Or.inr rfl), if_pos rfl]
          have habs : -((q.num.natAbs : Int)) = q.num := by omega
          rw [habs, Rat.mkRat_self]
        · rw [if_neg hneg, if_pos (Or.inl rfl),
            if_neg (by norm_num)]
          have habs : ((q.num.natAbs : Int)) = q.num := by omega
          rw [habs, Rat.mkRat_self]
      | text s => rfl
      | blob b => rfl
      | array xs =>
        obtain ⟨hcnt, hbody, helems⟩ := validValue_array hv
        have hdv : ∀ x ∈ xs, decodeValueF f0 (tagOf x) (payloadBytes x) = .ok x := by
          intro x hx
          have hs1 : sizeOf x ≤ n := by
            have hx1 := List.sizeOf_lt_of_mem hx
            have hx2 : sizeOf (Value.array xs) = 1 + sizeOf xs := by simp
            omega
          have hd1 : vdepth x ≤ f0 := by
            have := ldepth_mem hx
            have hde : vdepth (Value.array xs) = 1 + ldepth xs := rfl
            omega
          exact ih x f0 hs1 hd1 (validElems_mem helems x hx)
        show (do
          let (cnt, r) ← readU32 (u32LE xs.length ++
            (elemDescBytes 0 xs ++ arrayBodyBytes xs))
          let (ehs, body) ← parseElemHeaders cnt r
          if (ehs.map ElemHeader.size).sum = body.length then do
            let vs ← decodeElemsWith (decodeValueF f0) body ehs
            Except.ok (Value.array vs)
          else Except.error DecodeError.malformedEncoding) = Except.ok (Value.array xs)
        rw [readU32_u32LE hcnt, exceptBind_ok]
        show (do
          let (ehs, body) ← parseElemHeaders xs.length
            (elemDescBytes 0 xs ++ arrayBodyBytes xs)
          if (ehs.map ElemHeader.size).sum = body.length then do
            let vs ← decodeElemsWith (decodeValueF f0) body ehs
            Except.ok (Value.array vs)
          else Except.error DecodeError.malformedEncoding) = Except.ok (Value.array xs)
        rw [parseElemHeaders_encoded xs 0 (arrayBodyBytes xs) helems
          (by omega), exceptBind_ok]
        show (if ((elemHeadersOf 0 xs).map ElemHeader.size).sum =
            (arrayBodyBytes xs).length then do
            let vs ← decodeElemsWith (decodeValueF f0) (arrayBodyBytes xs)
              (elemHeadersOf 0 xs)
            Except.ok (Value.array vs)
          else Except.error DecodeError.malformedEncoding) = Except.ok (Value.array xs)
        rw [if_pos (elemHeadersOf_sizes xs 0)]
        have hdec := decodeElemsWith_encoded xs [] (decodeValueF f0) hdv
        rw [List.nil_append] at hdec
        rw [show elemHeadersOf 0 xs =
          elemHeadersOf (List.length ([] : Bytes)) xs from rfl, hdec,
          exceptBind_ok]
      | document fs =>
        obtain ⟨hcnt, hbody, hfields⟩ := validValue_document hv
        have hdv : ∀ p ∈ fs, decodeValueF f0 (tagOf p.2) (payloadBytes p.2) =
            .ok p.2 := by
          intro p hp
          have hs1 : sizeOf p.2 ≤ n := by
            have hx1 := List.sizeOf_lt_of_mem hp
            have hx2 : sizeOf (Value.document fs) = 1 + sizeOf fs := by simp
            have hx3 : sizeOf p.2 < sizeOf p := by
              rcases p with ⟨nm, v⟩
              simp
            omega
          have hd1 : vdepth p.2 ≤ f0 := by
            have := fdepth_mem hp
            have hde : vdepth (Value.document fs) = 1 + fdepth fs := rfl
            omega
          exact ih p.2 f0 hs1 hd1 (validFields_memValue hfields p hp)
        show (do
          let (cnt, r) ← readU32 (u32LE fs.length ++
            (fieldDescBytes 0 fs ++ docBodyBytes fs))
          let (fhs, body) ← parseFieldHeaders cnt r
          if (fhs.map FieldHeader.size).sum = body.length then do
            let fs2 ← decodeFieldsWith (decodeValueF f0) body fhs
            Except.ok (Value.document fs2)
          else Except.error DecodeError.malformedEncoding) = Except.ok (Value.document fs)
        rw [readU32_u32LE hcnt, exceptBind_ok]
        show (do
          let (fhs, body) ← parseFieldHeaders fs.length
            (fieldDescBytes 0 fs ++ docBodyBytes fs)
          if (fhs.map FieldHeader.size).sum = body.length then do
            let fs2 ← decodeFieldsWith (decodeValueF f0) body fhs
            Except.ok (Value.document fs2)
          else Except.error DecodeError.malformedEncoding) = Except.ok (Value.document fs)
        rw [parseFieldHeaders_encoded fs 0 (docBodyBytes fs) hfields
          (by omega), exceptBind_ok]
        show (if ((headersOf 0 fs).map FieldHeader.size).sum =
            (docBodyBytes fs).length then do
            let fs2 ← decodeFieldsWith (decodeValueF f0) (docBodyBytes fs)
              (headersOf 0 fs)
            Except.ok (Value.document fs2)
          else Except.error DecodeError.malformedEncoding) = Except.ok (Value.document fs)
        rw [if_pos (headersOf_sizes fs 0)]
        have hdec := decodeFieldsWith_encoded fs [] (decodeValueF f0) hdv
        rw [List.nil_append] at hdec
        rw [show headersOf 0 fs =
          headersOf (List.length ([] : Bytes)) fs from rfl, hdec,
          exceptBind_ok]

theorem payload_le_arrayBody : ∀ {xs : List Value} {x : Value}, x ∈ xs →
    (payloadBytes x).length ≤ (arrayBodyBytes xs).length := by
  intro xs
  induction xs with
  | nil => intro x hx; cases hx
  | cons y ys ih =>
    intro x hx
    rw [arrayBodyBytes_cons, List.length_append]
    rcases List.mem_cons.mp hx with rfl | hx'
    · omega
    · have := ih hx'
      omega

theorem payload_le_docBody : ∀ {fs : List (Bytes × Value)} {p : Bytes × Value},
    p ∈ fs → (payloadBytes p.2).length ≤ (docBodyBytes fs).length := by
  intro fs
  induction fs with
  | nil => intro p hp; cases hp
  | cons q qs ih =>
    intro p hp
    rcases q with ⟨nm, v⟩
    rw [docBodyBytes_cons, List.length_append]
    rcases List.mem_cons.mp hp with rfl | hp'
    · show (payloadBytes v).length ≤ (payloadBytes v).length +
        (docBodyBytes qs).length
      omega
    · have := ih hp'
      omega

theorem ldepth_le {xs : List Value} {k : Nat} (h : ∀ x ∈ xs, vdepth x ≤ k) :
    ldepth xs ≤ k := by
  induction xs with
  | nil => simp [ldepth]
  | cons y ys ih =>
    simp only [ldepth, Nat.max_le]
    exact ⟨h y (List.mem_cons_self _ _),
      ih fun x hx => h x (List.mem_cons_of_mem _ hx)⟩

theorem fdepth_le {fs : List (Bytes × Value)} {k : Nat}
    (h : ∀ p ∈ fs, vdepth p.2 ≤ k) : fdepth fs ≤ k := by
  induction fs with
  | nil => simp [fdepth]
  | cons q qs ih =>
    rcases q with ⟨nm, v⟩
    simp only [fdepth, Nat.max_le]
    exact ⟨h (nm, v) (List.mem_cons_self _ _),
      ih fun p hp => h p (List.mem_cons_of_mem _ hp)⟩

theorem payloadBytes_array_length (xs : List Value) :
    (payloadBytes (.array xs)).length =
      4 + ((elemDescBytes 0 xs).length + (arrayBodyBytes xs).length) := by
  rw [show payloadBytes (.array xs) = u32LE xs.length ++
    (elemDescBytes 0 xs ++ arrayBodyBytes xs) from rfl]
  simp [u32LE, List.length_append]
  omega

theorem payloadBytes_document_length (fs : List (Bytes × Value)) :
    (payloadBytes (.document fs)).length =
      4 + ((fieldDescBytes 0 fs).length + (docBodyBytes fs).length) := by
  rw [show payloadBytes (.document fs) = u32LE fs.length ++
    (fieldDescBytes 0 fs ++ docBodyBytes fs) from rfl]
  simp [u32LE, List.length_append]
  omega

theorem vdepth_le_payload :
    ∀ (n : Nat) (v : Value), sizeOf v ≤ n →
      vdepth v ≤ (payloadBytes v).length + 1 := by
  intro n
  induction n with
  | zero =>
    intro v h
    exact absurd (Nat.le_trans (Value.one_le_sizeOf v) h) (by omega)
  | succ n ih =>
    intro v hn
    cases v with
    | array xs =>
      have hmem : ∀ x ∈ xs, vdepth x ≤ (arrayBodyBytes xs).length + 1 := by
        intro x hx
        have hs1 : sizeOf x ≤ n := by
          have hx1 := List.sizeOf_lt_of_mem hx
          have hx2 : sizeOf (Value.array xs) = 1 + sizeOf xs := by simp
          omega
        exact Nat.le_trans (ih x hs1)
          (by have := payload_le_arrayBody hx; omega)
      have hld : ldepth xs ≤ (arrayBodyBytes xs).length + 1 := ldepth_le hmem
      have hlen := payloadBytes_array_length xs
      have hde : vdepth (Value.array xs) = 1 + ldepth xs := rfl
      omega
    | document fs =>
      have hmem : ∀ p ∈ fs, vdepth p.2 ≤ (docBodyBytes fs).length + 1 := by
        intro p hp
        have hs1 : sizeOf p.2 ≤ n := by
          have hx1 := List.sizeOf_lt_of_mem hp
          have hx2 : sizeOf (Value.document fs) = 1 + sizeOf fs := by simp
          have hx3 : sizeOf p.2 < sizeOf p := by
            rcases p with ⟨nm, w⟩
            simp
          omega
        exact Nat.le_trans (ih p.2 hs1)
          (by have := payload_le_docBody hp; omega)
      have hfd : fdepth fs ≤ (docBodyBytes fs).length + 1 := fdepth_le hmem
      have hlen := payloadBytes_document_length fs
      have hde : vdepth (Value.document fs) = 1 + fdepth fs := rfl
      omega
    | null => simp [vdepth]
    | bool b => simp [vdepth]
    | integer i => simp [vdepth]
    | double q => simp [vdepth]
    | text s => simp [vdepth]
    | blob b => simp [vdepth]

/-- Each field payload of a valid document decodes back to its value at the
standard fuel. -/
theorem decodeValue_payload {fs : List (Bytes × Value)}
    (h : validFields fs = true) :
    ∀ p ∈ fs, decodeValue (tagOf p.2) (payloadBytes p.2) = .ok p.2 := by
  intro p hp
  unfold decodeValue
  exact decodeValueF_payload (sizeOf p.2) p.2 ((payloadBytes p.2).length + 1)
    (Nat.le_refl _) (vdepth_le_payload (sizeOf p.2) p.2 (Nat.le_refl _))
    (validFields_memValue h p hp)

/-- Decoding an encoded document yields exactly its header descriptors and body. -/
theorem decodeFormat_Encode (fs : List (Bytes × Value)) (h : validDoc fs = true) :
    decodeFormat (Encode fs) =
      .ok ⟨⟨fs.length, headersOf 0 fs⟩, docBodyBytes fs⟩ := by
  obtain ⟨hcnt, hbody, hfields⟩ := validValue_document h
  unfold decodeFormat Encode
  rw [readU32_u32LE hcnt, exceptBind_ok]
  show (do
    let (fhs, body) ← parseFieldHeaders fs.length
      (fieldDescBytes 0 fs ++ docBodyBytes fs)
    if Header.bodySize ⟨fs.length, fhs⟩ = body.length then
      Except.ok (⟨⟨fs.length, fhs⟩, body⟩ : Format)
    else Except.error DecodeError.malformedEncoding) = _
  rw [parseFieldHeaders_encoded fs 0 _ hfields (by omega), exceptBind_ok]
  show (if Header.bodySize ⟨fs.length, headersOf 0 fs⟩ =
      (docBodyBytes fs).length then
      Except.ok (⟨⟨fs.length, headersOf 0 fs⟩, docBodyBytes fs⟩ : Format)
    else Except.error DecodeError.malformedEncoding) = _
  rw [if_pos (show Header.bodySize ⟨fs.length, headersOf 0 fs⟩ =
    (docBodyBytes fs).length from headersOf_sizes fs 0)]

/-- Shared core of the round-trip results: full decode + iterate of an encoded
valid document buffer reproduces its (name, Value) sequence. -/
theorem decodeDocBytes_Encode (fs : List (Bytes × Value))
    (h : validDoc fs = true) : decodeDocBytes (Encode fs) = .ok fs := by
  obtain ⟨hcnt, hbody, hfields⟩ := validValue_document h
  unfold decodeDocBytes
  rw [decodeFormat_Encode fs h, exceptBind_ok]
  unfold iterateFormat
  show decodeFieldsWith decodeValue (docBodyBytes fs) (headersOf 0 fs) = _
  have hdec := decodeFieldsWith_encoded fs [] decodeValue (decodeValue_payload hfields)
  rw [List.nil_append] at hdec
  rw [show headersOf 0 fs = headersOf (List.length ([] : Bytes)) fs from rfl, hdec]

theorem decodeField_scan_aux :
    ∀ (fs : List (Bytes × Value)) (pre : Bytes) (nm : Bytes),
      (∀ p ∈ fs, decodeValue (tagOf p.2) (payloadBytes p.2) = .ok p.2) →
      (match (headersOf pre.length fs).find? (fun fh => decide (fh.name = nm)) with
       | some fh => (do
           let s ← sliceAt (pre ++ docBodyBytes fs) fh.offset fh.size
           decodeValue fh.ftype s)
       | none => Except.error DecodeError.fieldNotFound) =
      (match lookupField fs nm with
       | some v => Except.ok v
       | none => Except.error DecodeError.fieldNotFound)
  | [], pre, nm, _ => rfl
  | (n0, v) :: fs, pre, nm, h => by
    rw [show headersOf pre.length ((n0, v) :: fs) =
      (⟨n0.length, n0, tagOf v, (payloadBytes v).length, pre.length⟩ :
        FieldHeader) :: headersOf (pre.length + (payloadBytes v).length) fs
      from rfl]
    by_cases he : n0 = nm
    · subst he
      rw [List.find?_cons_of_pos _ (by simp)]
      rw [show lookupField ((n0, v) :: fs) n0 = some v from by
        simp [lookupField]]
      show (do
        let s ← sliceAt (pre ++ docBodyBytes ((n0, v) :: fs)) pre.length
          (payloadBytes v).length
        decodeValue (tagOf v) s) = Except.ok v
      rw [docBodyBytes_cons,
        sliceAt_encoded pre (payloadBytes v) (docBodyBytes fs), exceptBind_ok]
      exact h (n0, v) (List.mem_cons_self _ _)
    · rw [List.find?_cons_of_neg _ (by simp [he])]
      rw [show lookupField ((n0, v) :: fs) nm = lookupField fs nm from by
        simp [lookupField, he]]
      have hrec := decodeField_scan_aux fs (pre ++ payloadBytes v) nm
        (fun p hp => h p (List.mem_cons_of_mem _ hp))
      rw [List.length_append] at hrec
      rw [docBodyBytes_cons, ← List.append_assoc]
      exact hrec

/-- DecodeField on an encoded valid document behaves as a first-match lookup in
the field list. -/
theorem DecodeField_Encode (fs : List (Bytes × Value)) (h : validDoc fs = true)
    (nm : Bytes) :
    DecodeField (Encode fs) nm =
      (match lookupField fs nm with
       | some v => Except.ok v
       | none => Except.error DecodeError.fieldNotFound) := by
  obtain ⟨hcnt, hbody, hfields⟩ := validValue_document h
  unfold DecodeField Encode
  rw [readU32_u32LE hcnt, exceptBind_ok]
  show (do
    let (fhs, body) ← parseFieldHeaders fs.length
      (fieldDescBytes 0 fs ++ docBodyBytes fs)
    match fhs.find? (fun (fh : FieldHeader) => decide (fh.name = nm)) with
    | some fh => (do
        let s ← sliceAt body fh.offset fh.size
        decodeValue fh.ftype s)
    | none => Except.error DecodeError.fieldNotFound) = _
  rw [parseFieldHeaders_encoded fs 0 _ hfields (by omega), exceptBind_ok]
  have hrec := decodeField_scan_aux fs [] nm (decodeValue_payload hfields)
  rw [List.nil_append] at hrec
  rw [show headersOf 0 fs = headersOf (List.length ([] : Bytes)) fs from rfl]
  exact hrec

/-- C1: round trip — for every document buffer built via add from valid values
(covering any mix of the kinds), decoding the bytes produced by Encode and fully
iterating the result reproduces exactly the same (name, Value) sequence in the
same field order. -/
theorem decode_encode_roundTrip (fs : List (Bytes × Value))
    (h : validDoc fs = true) : decodeDocBytes (Encode fs) = .ok fs :=
  decodeDocBytes_Encode fs h

/-- A document buffer covering every kind: Null, Bool, Integer, Double, Text,
Blob, nested Array (itself mixed and nested), nested Document. -/
def allKindsDoc : List (Bytes × Value) :=
  [(stringBytes "a", .null),
   (stringBytes "b", .bool true),
   (stringBytes "c", NewIntValue (-7)),
   (stringBytes "d", NewFloat64Value (mkRat (-10) 4)),
   (stringBytes "e", NewTextValue "hello"),
   (stringBytes "f", NewBlobValue [1, 2, 255]),
   (stringBytes "g", .array [NewIntValue 1, .text (stringBytes "x"), .array []]),
   (stringBytes "h", .document [(stringBytes "i", NewTextValue "g")])]

/-- Witness for C1 at a concrete buffer covering every kind. -/
theorem decode_encode_roundTrip_witness :
    validDoc allKindsDoc = true ∧
      decodeDocBytes (Encode allKindsDoc) = .ok allKindsDoc :=
  ⟨rfl, decode_encode_roundTrip allKindsDoc rfl⟩

/-- C2: random access — for every encoded valid record, full decode + iterate
reproduces the buffer, and DecodeField returns, for every name, exactly the Value
that the iterated sequence holds at the first occurrence of that name, or fails
FieldNotFound when the name is absent. -/
theorem decodeField_random_access (fs : List (Bytes × Value))
    (h : validDoc fs = true) (nm : Bytes) :
    decodeDocBytes (Encode fs) = .ok fs ∧
    DecodeField (Encode fs) nm =
      (match lookupField fs nm with
       | some v => Except.ok v
       | none => Except.error DecodeError.fieldNotFound) :=
  ⟨decodeDocBytes_Encode fs h, DecodeField_Encode fs h nm⟩

/-- The document buffer {age: Integer(10), name: Text("john")} of the format
tests. -/
def docAgeName : List (Bytes × Value) :=
  [(stringBytes "age", NewIntValue 10), (stringBytes "name", NewTextValue "john")]

/-- Witness for C2: on the encoded {age, name} record, DecodeField finds both
present fields and fails FieldNotFound on an absent one. -/
theorem decodeField_random_access_witness :
    validDoc docAgeName = true ∧
    DecodeField (Encode docAgeName) (stringBytes "age") =
      .ok (NewIntValue 10) ∧
    DecodeField (Encode docAgeName) (stringBytes "zzz") =
      .error .fieldNotFound := by
  refine ⟨rfl, ?_, ?_⟩
  · rw [(decodeField_random_access docAgeName rfl (stringBytes "age")).2]
    rfl
  · rw [(decodeField_random_access docAgeName rfl (stringBytes "zzz")).2]
    rfl

/-- C8: encoding {age: Integer(10), name: Text("john")} and decoding the bytes
yields a Format with field count 2, body length equal to Header.bodySize(), and
descriptors: field 0 "age" (name length 3, size 8, offset 0), field 1 "name"
(name length 4, size 4, offset 8); integers occupy a fixed 8 bytes and offsets
are cumulative into the Body. -/
theorem format_age_name :
    decodeFormat (Encode docAgeName) =
      .ok ⟨⟨2, [⟨3, stringBytes "age", 3, 8, 0⟩,
                ⟨4, stringBytes "name", 5, 4, 8⟩]⟩,
        intBytes 10 ++ stringBytes "john"⟩ ∧
    (intBytes 10 ++ stringBytes "john").length =
      Header.bodySize ⟨2, [⟨3, stringBytes "age", 3, 8, 0⟩,
                           ⟨4, stringBytes "name", 5, 4, 8⟩]⟩ :=
  ⟨rfl, rfl⟩

/-! ## Producer adapters (§4.4) -/

/-- Errors of the producer adapters and document access (§7): malformed textual
input and missed lookups. -/
inductive ProducerError : Type where
  | invalidInput : ProducerError
  | fieldNotFound : ProducerError
deriving DecidableEq

/-- The characters the from-text parser skips as whitespace. -/
def isJsonWs (c : Char) : Bool :=
  c = ' ' ∨ c = '\t' ∨ c = '\n' ∨ c = '\r'

/-- Skip leading whitespace. -/
def skipWs (cs : List Char) : List Char := cs.dropWhile isJsonWs

/-- Parse the remainder of a quoted string (the opening quote already consumed);
returns the content characters and the input after the closing quote. -/
def parseStringRest : List Char → Except ProducerError (List Char × List Char)
  | [] => .error .invalidInput
  | c :: cs =>
    if c = '"' then .ok ([], cs)
    else if c = '\\' then
      match cs with
      | [] => .error .invalidInput
      | e :: cs2 =>
        let esc : Except ProducerError Char :=
          if e = '"' then .ok '"'
          else if e = '\\' then .ok '\\'
          else if e = '/' then .ok '/'
          else if e = 'n' then .ok '\n'
          else if e = 't' then .ok '\t'
          else if e = 'r' then .ok '\r'
          else .error .invalidInput
        do
          let ec ← esc
          let (s, rest) ← parseStringRest cs2
          .ok (ec :: s, rest)
    else do
      let (s, rest) ← parseStringRest cs
      .ok (c :: s, rest)

/-- Numeric value of a digit run. -/
def digitsVal (ds : List Char) : Nat :=
  ds.foldl (fun a c => a * 10 + (c.toNat - 48)) 0

/-- The numeric Value of a parsed literal: Integer when there is neither a
fractional part nor an exponent, Double otherwise (§4.4).  The Double value is
intDigits.fracDigits × 10^exponent. -/
def numValue (neg : Bool) (intDs : List Char) (frac : Option (List Char))
    (expo : Option (Bool × List Char)) : Value :=
  match frac, expo with
  | none, none =>
    .integer ((if neg then -1 else 1) * (digitsVal intDs : Int))
  | _, _ =>
    let fds := frac.getD []
    let mant : Int := (if neg then -1 else 1) *
      (digitsVal (intDs ++ fds) : Int)
    let e10 : Int :=
      (match expo with
       | none => 0
       | some (eneg, eds) => (if eneg then -1 else 1) * (digitsVal eds : Int)) -
        (fds.length : Int)
    .double (if 0 ≤ e10 then ((mant * 10 ^ e10.toNat : Int) : ℚ)
      else mkRat mant (10 ^ (-e10).toNat))

/-- Consume an optional leading minus sign. -/
def parseSign (cs : List Char) : Bool × List Char :=
  match cs with
  | c :: rest => if c = '-' then (true, rest) else (false, cs)
  | [] => (false, cs)

/-- Consume an optional fractional part; none signals a malformed one (a dot
with no digits). -/
def parseFracPart (cs : List Char) : Option (Option (List Char) × List Char) :=
  match cs with
  | c :: rest =>
    if c = '.' then
      if (rest.takeWhile Char.isDigit).isEmpty then none
      else some (some (rest.takeWhile Char.isDigit), rest.dropWhile Char.isDigit)
    else some (none, cs)
  | [] => some (none, cs)

/-- Consume an optional exponent sign. -/
def parseExpSign (cs : List Char) : Bool × List Char :=
  match cs with
  | c :: rest =>
    if c = '-' then (true, rest)
    else if c = '+' then (false, rest)
    else (false, cs)
  | [] => (false, cs)

/-- Parse the optional exponent part and build the final numeric Value. -/
def parseNumberExp (neg : Bool) (intDs : List Char) (frac : Option (List Char))
    (cs : List Char) : Except ProducerError (Value × List Char) :=
  match cs with
  | c :: rest =>
    if c = 'e' ∨ c = 'E' then
      let es := parseExpSign rest
      if (es.2.takeWhile Char.isDigit).isEmpty then .error .invalidInput
      else .ok (numValue neg intDs frac (some (es.1, es.2.takeWhile Char.isDigit)),
        es.2.dropWhile Char.isDigit)
    else .ok (numValue neg intDs frac none, cs)
  | [] => .ok (numValue neg intDs frac none, [])

/-- Parse a numeric literal: optional minus, integer digits, optional fractional
part, optional exponent; the Value kind is Integer unless a fraction or an
exponent is present (§4.4). -/
def parseNumber (cs : List Char) : Except ProducerError (Value × List Char) :=
  let s := parseSign cs
  if (s.2.takeWhile Char.isDigit).isEmpty then .error .invalidInput
  else
    match parseFracPart (s.2.dropWhile Char.isDigit) with
    | none => .error .invalidInput
    | some (frac, cs3) =>
      parseNumberExp s.1 (s.2.takeWhile Char.isDigit) frac cs3

mutual

/-- Modelled from the spec: the from-text (JSON-like) recursive-descent value
parser (§4.4); the fuel only bounds the recursion and is immaterial once at
least twice the input length. -/
def parseValueF : Nat → List Char → Except ProducerError (Value × List Char)
  | 0, _ => .error .invalidInput
  | f + 1, cs =>
    match skipWs cs with
    | [] => .error .invalidInput
    | c :: cs1 =>
      if c = 'n' then
        match cs1 with
        | 'u' :: 'l' :: 'l' :: rest => .ok (.null, rest)
        | _ => .error .invalidInput
      else if c = 't' then
        match cs1 with
        | 'r' :: 'u' :: 'e' :: rest => .ok (.bool true, rest)
        | _ => .error .invalidInput
      else if c = 'f' then
        match cs1 with
        | 'a' :: 'l' :: 's' :: 'e' :: rest => .ok (.bool false, rest)
        | _ => .error .invalidInput
      else if c = '"' then do
        let (s, rest) ← parseStringRest cs1
        .ok (.text (s.map Char.toNat), rest)
      else if c = '[' then do
        let (vs, rest) ← parseArrayItemsF f true cs1
        .ok (.array vs, rest)
      else if c = '\x7b' then do
        let (fs, rest) ← parseMembersF f true cs1
        .ok (.document fs, rest)
      else parseNumber (c :: cs1)

/-- Parse the items of an array after the opening bracket; the flag marks the
first item (no preceding comma). -/
def parseArrayItemsF : Nat → Bool → List Char →
    Except ProducerError (List Value × List Char)
  | 0, _, _ => .error .invalidInput
  | f + 1, first, cs =>
    match skipWs cs with
    | [] => .error .invalidInput
    | c :: cs1 =>
      if c = ']' then
        if first then .ok ([], cs1) else .error .invalidInput
      else do
        let (v, rest) ← parseValueF f cs
        match skipWs rest with
        | ']' :: rest2 => .ok ([v], rest2)
        | ',' :: rest2 => do
          let (vs, rest3) ← parseArrayItemsF f false rest2
          .ok (v :: vs, rest3)
        | _ => .error .invalidInput

/-- Parse the members of an object after the opening brace; the flag marks the
first member. -/
def parseMembersF : Nat → Bool → List Char →
    Except ProducerError (List (Bytes × Value) × List Char)
  | 0, _, _ => .error .invalidInput
  | f + 1, first, cs =>
    match skipWs cs with
    | [] => .error .invalidInput
    | c :: cs1 =>
      if c = '\x7d' then
        if first then .ok ([], cs1) else .error .invalidInput
      else if c = '"' then do
        let (nm, rest) ← parseStringRest cs1
        match skipWs rest with
        | ':' :: rest2 => do
          let (v, rest3) ← parseValueF f rest2
          match skipWs rest3 with
          | '\x7d' :: rest4 => .ok ([(nm.map Char.toNat, v)], rest4)
          | ',' :: rest4 => do
            let (fs, rest5) ← parseMembersF f false rest4
            .ok ((nm.map Char.toNat, v) :: fs, rest5)
          | _ => .error .invalidInput
        | _ => .error .invalidInput
      else .error .invalidInput

end

/-- Modelled from the spec: the deferred from-text Document (§4.4, §9): it only
stores the raw source, so construction itself never fails; the parser runs on
first access. -/
structure JSONDoc : Type where
  src : List Char

/-- Modelled from the spec: NewFromJSON builds the deferred Document without
parsing (construction is a total function and cannot fail). -/
def NewFromJSON (s : List Char) : JSONDoc := ⟨s⟩

/-- Parse the full source as one top-level object; any syntactically invalid or
truncated source is reported as InvalidInput.  This is what the first iterate or
copy against the deferred Document runs. -/
def jsonDocFields (d : JSONDoc) : Except ProducerError (List (Bytes × Value)) :=
  match skipWs d.src with
  | '\x7b' :: rest => do
    let (fs, rest2) ← parseMembersF (2 * d.src.length + 2) true rest
    match skipWs rest2 with
    | [] => .ok fs
    | _ => .error .invalidInput
  | _ => .error .invalidInput

/-- Copy drains the deferred Document's iteration into a materialized buffer;
it surfaces the parse error of a malformed source. -/
def jsonCopy (d : JSONDoc) : Except ProducerError (List (Bytes × Value)) :=
  jsonDocFields d

/-- GetByField against the deferred Document: parse on access, then first-match
lookup. -/
def jsonGetByField (d : JSONDoc) (nm : Bytes) : Except ProducerError Value := do
  let fs ← jsonDocFields d
  match lookupField fs nm with
  | some v => .ok v
  | none => .error .fieldNotFound

/-- Character list of a string literal. -/
def chars (s : String) : List Char := s.data

/-- C7: constructing a Document from malformed text never fails at construction
time (NewFromJSON is a total function, last conjunct); instead the first copy
(drained iterate) or getByField against it surfaces the malformed-input error —
for the missing-comma source and for the unterminated brace — and no partial
field list is ever returned in place of the error. -/
theorem malformed_json_fails_on_access :
    jsonCopy (NewFromJSON (chars "\x7b\"a\": 1 \"b\": 2\x7d")) =
      .error .invalidInput ∧
    jsonCopy (NewFromJSON (chars "\x7b")) = .error .invalidInput ∧
    jsonGetByField (NewFromJSON (chars "\x7b\"a\": 1 \"b\": 2\x7d"))
      (stringBytes "a") = .error .invalidInput ∧
    jsonGetByField (NewFromJSON (chars "\x7b")) (stringBytes "a") =
      .error .invalidInput ∧
    (∀ s : List Char, NewFromJSON s = ⟨s⟩) :=
  ⟨rfl, rfl, rfl, rfl, fun _ => rfl⟩

/-- A structured numeric literal: sign, integer digits, optional fraction
digits, optional exponent (sign and digits). -/
structure NumLit : Type where
  neg : Bool
  intDigits : List Char
  frac : Option (List Char)
  expo : Option (Bool × List Char)

/-- Well-formedness of a numeric literal: nonempty digit runs throughout. -/
def NumLit.wf (L : NumLit) : Bool :=
  (decide (L.intDigits ≠ []) && L.intDigits.all Char.isDigit) &&
  ((match L.frac with
    | none => true
    | some ds => decide (ds ≠ []) && ds.all Char.isDigit) &&
   (match L.expo with
    | none => true
    | some p => decide (p.2 ≠ []) && p.2.all Char.isDigit))

/-- The source text of a numeric literal. -/
def NumLit.render (L : NumLit) : List Char :=
  (if L.neg then ['-'] else []) ++
    (L.intDigits ++
      ((match L.frac with
        | none => []
        | some ds => '.' :: ds) ++
       (match L.expo with
        | none => []
        | some p => 'e' :: ((if p.1 then ['-'] else []) ++ p.2))))

theorem takeWhile_digits_append :
    ∀ {ds r : List Char}, (∀ c ∈ ds, c.isDigit = true) →
      (∀ c, r.head? = some c → c.isDigit = false) →
      (ds ++ r).takeWhile Char.isDigit = ds ∧
        (ds ++ r).dropWhile Char.isDigit = r := by
  intro ds
  induction ds with
  | nil =>
    intro r _ hr
    cases r with
    | nil => exact ⟨rfl, rfl⟩
    | cons c r' =>
      simp only [List.nil_append, List.takeWhile_cons, List.dropWhile_cons,
        hr c rfl]
      exact ⟨rfl, rfl⟩
  | cons d ds' ih =>
    intro r hds hr
    have hd : d.isDigit = true := hds d (List.mem_cons_self _ _)
    have ⟨ht, hdr⟩ := ih (fun c hc => hds c (List.mem_cons_of_mem _ hc)) hr
    simp only [List.cons_append, List.takeWhile_cons, List.dropWhile_cons, hd,
      ht, hdr]
    exact ⟨rfl, rfl⟩

theorem isDigit_ne {c : Char} (h : c.isDigit = true) (c' : Char)
    (h2 : c'.isDigit = false) : c ≠ c' := by
  intro he
  rw [he, h2] at h
  cases h

theorem parseNumber_render (L : NumLit) (h : L.wf = true) :
    parseNumber (NumLit.render L) =
      .ok (numValue L.neg L.intDigits L.frac L.expo, []) := by
  rcases L with ⟨neg, intDs, frac, expo⟩
  simp only [NumLit.wf, Bool.and_eq_true, decide_eq_true_eq, List.all_eq_true]
    at h
  obtain ⟨⟨hne, hdig⟩, hfr, hex⟩ := h
  have hfracR : ∀ c, ((match frac with
      | none => ([] : List Char)
      | some ds => '.' :: ds) ++
     (match expo with
      | none => ([] : List Char)
      | some p => 'e' :: ((if p.1 then ['-'] else []) ++ p.2))).head? = some c →
      c.isDigit = false := by
    intro c hc
    cases frac with
    | some ds =>
      simp only [List.cons_append, List.head?_cons, Option.some.injEq] at hc
      subst hc
      decide
    | none =>
      cases expo with
      | none => simp at hc
      | some p =>
        simp only [List.nil_append, List.head?_cons, Option.some.injEq] at hc
        subst hc
        decide
  have hie : intDs.isEmpty = false := by
    cases intDs with
    | nil => exact absurd rfl hne
    | cons d ds' => rfl
  have hsign : parseSign (NumLit.render ⟨neg, intDs, frac, expo⟩) =
      (neg, intDs ++
        ((match frac with
          | none => []
          | some ds => '.' :: ds) ++
         (match expo with
          | none => []
          | some p => 'e' :: ((if p.1 then ['-'] else []) ++ p.2)))) := by
    cases neg with
    | true => simp [NumLit.render, parseSign]
    | false =>
      simp only [NumLit.render, Bool.false_eq_true, if_false, List.nil_append]
      cases hi : intDs with
      | nil => exact absurd hi hne
      | cons d ds' =>
        have hd : d.isDigit = true := by
          apply hdig
          rw [hi]
          exact List.mem_cons_self _ _
        simp only [List.cons_append, parseSign,
          if_neg (isDigit_ne hd '-' (by decide))]
  have htd := takeWhile_digits_append hdig hfracR
  unfold parseNumber
  rw [hsign]
  show (if ((intDs ++ _).takeWhile Char.isDigit).isEmpty then
      Except.error ProducerError.invalidInput
    else match parseFracPart ((intDs ++ _).dropWhile Char.isDigit) with
      | none => Except.error ProducerError.invalidInput
      | some (fr, cs3) =>
        parseNumberExp neg ((intDs ++ _).takeWhile Char.isDigit) fr cs3) = _
  rw [htd.1, htd.2, if_neg (by rw [hie]; exact Bool.false_ne_true)]
  have hexpR : ∀ c, (match expo with
      | none => ([] : List Char)
      | some p => 'e' :: ((if p.1 then ['-'] else []) ++ p.2)).head? = some c →
      c.isDigit = false := by
    intro c hc
    cases expo with
    | none => simp at hc
    | some p =>
      simp only [List.head?_cons, Option.some.injEq] at hc
      subst hc
      decide
  have hexpStep : parseNumberExp neg intDs frac
      (match expo with
       | none => ([] : List Char)
       | some p => 'e' :: ((if p.1 then ['-'] else []) ++ p.2)) =
      .ok (numValue neg intDs frac expo, []) := by
    cases expo with
    | none => rfl
    | some p =>
      rcases p with ⟨eneg, eds⟩
      simp only [Bool.and_eq_true, decide_eq_true_eq, List.all_eq_true] at hex
      obtain ⟨hene, hedig⟩ := hex
      have htde := takeWhile_digits_append hedig
        (fun c (hc : ([] : List Char).head? = some c) => by simp at hc)
      rw [List.append_nil] at htde
      have hees : parseExpSign ((if eneg then ['-'] else []) ++ eds) =
          (eneg, eds) := by
        cases eneg with
        | true => simp [parseExpSign]
        | false =>
          simp only [Bool.false_eq_true, if_false, List.nil_append]
          cases he2 : eds with
          | nil => exact absurd he2 hene
          | cons e0 es' =>
            have he0 : e0.isDigit = true := by
              apply hedig
              rw [he2]
              exact List.mem_cons_self _ _
            simp only [parseExpSign, if_neg (isDigit_ne he0 '-' (by decide)),
              if_neg (isDigit_ne he0 '+' (by decide))]
      show parseNumberExp neg intDs frac
        ('e' :: ((if eneg then ['-'] else []) ++ eds)) = _
      simp only [parseNumberExp, reduceIte]
      rw [hees]
      show (if (eds.takeWhile Char.isDigit).isEmpty then
          Except.error ProducerError.invalidInput
        else Except.ok (numValue neg intDs frac
          (some (eneg, eds.takeWhile Char.isDigit)),
          eds.dropWhile Char.isDigit)) = _
      rw [htde.1, htde.2]
      rw [if_neg (by
        cases he2 : eds with
        | nil => exact absurd he2 hene
        | cons e0 es' => exact Bool.false_ne_true)]
  cases frac with
  | none =>
    show (match parseFracPart (match expo with
        | none => ([] : List Char)
        | some p => 'e' :: ((if p.1 then ['-'] else []) ++ p.2)) with
      | none => Except.error ProducerError.invalidInput
      | some (fr, cs3) => parseNumberExp neg intDs fr cs3) = _
    have hfp : parseFracPart (match expo with
        | none => ([] : List Char)
        | some p => 'e' :: ((if p.1 then ['-'] else []) ++ p.2)) =
        some (none, (match expo with
          | none => ([] : List Char)
          | some p => 'e' :: ((if p.1 then ['-'] else []) ++ p.2))) := by
      cases expo with
      | none => rfl
      | some p => simp [parseFracPart]
    rw [hfp]
    exact hexpStep
  | some fds =>
    simp only [Bool.and_eq_true, decide_eq_true_eq, List.all_eq_true] at hfr
    obtain ⟨hfne, hfdig⟩ := hfr
    have htdf := takeWhile_digits_append hfdig hexpR
    show (match parseFracPart ('.' :: (fds ++ (match expo with
        | none => ([] : List Char)
        | some p => 'e' :: ((if p.1 then ['-'] else []) ++ p.2)))) with
      | none => Except.error ProducerError.invalidInput
      | some (fr, cs3) => parseNumberExp neg intDs fr cs3) = _
    have hfie : (fds ++ (match expo with
        | none => ([] : List Char)
        | some p => 'e' :: ((if p.1 then ['-'] else []) ++ p.2))).takeWhile
          Char.isDigit = fds := htdf.1
    have hfp : parseFracPart ('.' :: (fds ++ (match expo with
        | none => ([] : List Char)
        | some p => 'e' :: ((if p.1 then ['-'] else []) ++ p.2)))) =
        some (some fds, (match expo with
          | none => ([] : List Char)
          | some p => 'e' :: ((if p.1 then ['-'] else []) ++ p.2))) := by
      simp only [parseFracPart, reduceIte]
      rw [hfie, htdf.2]
      rw [if_neg (by
        cases hf2 : fds with
        | nil => exact absurd hf2 hfne
        | cons f0 fs' => exact Bool.false_ne_true)]
    rw [hfp]
    exact hexpStep

/-- C9: when the from-text producer parses a numeric literal, it succeeds and
the resulting Value has kind Double exactly when the literal carries a
fractional part or an exponent, and kind Integer (with the literal's integer
value) otherwise; additionally instantiated at the document level on the test
sources {"a": 1000}, {"a": -1000}, {"a": 10000000000.0}, {"a": -10000000000.0}. -/
theorem numeric_literal_kinds :
    (∀ L : NumLit, L.wf = true →
      parseNumber (NumLit.render L) =
        .ok (numValue L.neg L.intDigits L.frac L.expo, []) ∧
      ((∃ q, numValue L.neg L.intDigits L.frac L.expo = Value.double q) ↔
        (L.frac.isSome ∨ L.expo.isSome)) ∧
      (L.frac = none → L.expo = none →
        numValue L.neg L.intDigits L.frac L.expo =
          Value.integer ((if L.neg then -1 else 1) *
            (digitsVal L.intDigits : Int)))) ∧
    jsonCopy (NewFromJSON (chars "\x7b\"a\": 1000\x7d")) =
      .ok [(stringBytes "a", Value.integer 1000)] ∧
    jsonCopy (NewFromJSON (chars "\x7b\"a\": -1000\x7d")) =
      .ok [(stringBytes "a", Value.integer (-1000))] ∧
    jsonCopy (NewFromJSON (chars "\x7b\"a\": 10000000000.0\x7d")) =
      .ok [(stringBytes "a", Value.double 10000000000)] ∧
    jsonCopy (NewFromJSON (chars "\x7b\"a\": -10000000000.0\x7d")) =
      .ok [(stringBytes "a", Value.double (-10000000000))] := by
  refine ⟨?_, rfl, rfl, rfl, rfl⟩
  intro L h
  refine ⟨parseNumber_render L h, ?_, ?_⟩
  · rcases L with ⟨neg, intDs, frac, expo⟩
    cases frac with
    | none =>
      cases expo with
      | none => simp [numValue]
      | some p => simp [numValue]
    | some fds =>
      cases expo with
      | none => simp [numValue]
      | some p => simp [numValue]
  · intro hf he
    rcases L with ⟨neg, intDs, frac, expo⟩
    simp only at hf he
    subst hf
    subst he
    rfl

/-- Witness for C9 at the concrete literal 1000. -/
theorem numeric_literal_kinds_witness :
    NumLit.wf ⟨false, chars "1000", none, none⟩ = true ∧
    parseNumber (NumLit.render ⟨false, chars "1000", none, none⟩) =
      .ok (numValue false (chars "1000") none none, []) :=
  ⟨rfl, (numeric_literal_kinds.1 ⟨false, chars "1000", none, none⟩ rfl).1⟩

/-- The Go values the from-map test exercises: strings, integers and nil. -/
inductive GoValue : Type where
  | gstr (s : String) : GoValue
  | gint (i : Int) : GoValue
  | gnil : GoValue
deriving DecidableEq

/-- Modelled from the spec and the from-map test: conversion of one Go map entry
value — strings become Text, integers become Integer, and a Go nil becomes the
Null value (the field is kept, not dropped). -/
def goValueToValue : GoValue → Value
  | .gstr s => NewTextValue s
  | .gint i => NewIntValue i
  | .gnil => .null

/-- Modelled from the spec: the from-map producer over a string-keyed mapping;
the typed model enforces the string-keyed requirement of §4.4, and entries keep
their iteration order. -/
def NewFromMap (m : List (String × GoValue)) : List (Bytes × Value) :=
  m.map fun p => (stringBytes p.1, goValueToValue p.2)

/-- GetByField on the from-map document: first-match lookup, FieldNotFound when
the key is absent. -/
def mapGetByField (m : List (String × GoValue)) (nm : Bytes) :
    Except ProducerError Value :=
  match lookupField (NewFromMap m) nm with
  | some v => .ok v
  | none => .error .fieldNotFound

/-- First entry of a given key in the Go map model. -/
def lookupGo : List (String × GoValue) → String → Option GoValue
  | [], _ => none
  | (k, g) :: m, key => if k = key then some g else lookupGo m key

theorem charToNat_inj {a b : Char} (h : a.toNat = b.toNat) : a = b :=
  Char.ext (UInt32.toNat.inj h)

theorem stringBytes_inj {a b : String} (h : stringBytes a = stringBytes b) :
    a = b := by
  apply String.ext
  exact List.map_injective_iff.mpr (fun x y hxy => charToNat_inj hxy) h

theorem lookupField_NewFromMap :
    ∀ (m : List (String × GoValue)) (nm : String),
      lookupField (NewFromMap m) (stringBytes nm) =
        Option.map goValueToValue (lookupGo m nm)
  | [], _ => rfl
  | (k, g) :: m, nm => by
    show (if stringBytes k = stringBytes nm then some (goValueToValue g)
      else lookupField (NewFromMap m) (stringBytes nm)) =
      Option.map goValueToValue (if k = nm then some g else lookupGo m nm)
    by_cases he : k = nm
    · rw [if_pos (by rw [he]), if_pos he]
      rfl
    · rw [if_neg (fun hc => he (stringBytes_inj hc)), if_neg he]
      exact lookupField_NewFromMap m nm

/-- C10: for every string-keyed map, a key holding Go nil is exposed as a field
of kind Null — GetByField succeeds with the Null value rather than failing
FieldNotFound or dropping the field — while string values become Text and
integer values become Integer; a key absent from the map fails FieldNotFound. -/
theorem newFromMap_getByField (m : List (String × GoValue)) (nm : String) :
    (lookupGo m nm = some .gnil →
      mapGetByField m (stringBytes nm) = .ok .null) ∧
    (∀ s, lookupGo m nm = some (.gstr s) →
      mapGetByField m (stringBytes nm) = .ok (NewTextValue s)) ∧
    (∀ i, lookupGo m nm = some (.gint i) →
      mapGetByField m (stringBytes nm) = .ok (NewIntValue i)) ∧
    (lookupGo m nm = none →
      mapGetByField m (stringBytes nm) = .error .fieldNotFound) := by
  refine ⟨?_, ?_, ?_, ?_⟩
  · intro h
    unfold mapGetByField
    rw [lookupField_NewFromMap m nm, h]
    rfl
  · intro s h
    unfold mapGetByField
    rw [lookupField_NewFromMap m nm, h]
    rfl
  · intro i h
    unfold mapGetByField
    rw [lookupField_NewFromMap m nm, h]
    rfl
  · intro h
    unfold mapGetByField
    rw [lookupField_NewFromMap m nm, h]
    rfl

/-- The map of the from-map test: name: "foo", age: 10, nilField: nil. -/
def testMap : List (String × GoValue) :=
  [("name", .gstr "foo"), ("age", .gint 10), ("nilField", .gnil)]

/-- Witness for C10 on the test map: the nil-valued key yields Null, the string
key Text, the integer key Integer, and an absent key FieldNotFound. -/
theorem newFromMap_getByField_witness :
    mapGetByField testMap (stringBytes "nilField") = .ok .null ∧
    mapGetByField testMap (stringBytes "name") = .ok (NewTextValue "foo") ∧
    mapGetByField testMap (stringBytes "age") = .ok (NewIntValue 10) ∧
    mapGetByField testMap (stringBytes "bar") = .error .fieldNotFound :=
  ⟨(newFromMap_getByField testMap "nilField").1 rfl,
   (newFromMap_getByField testMap "name").2.1 "foo" rfl,
   (newFromMap_getByField testMap "age").2.2.1 10 rfl,
   (newFromMap_getByField testMap "bar").2.2.2 rfl⟩

end Genji
